import Mathlib

/-!
# Verification of the configuration resolution helper

Shallow embedding of `skills/generate-pr-description/scripts/tasks-system.mjs`:
an interactive config loader that reads `skills-configs.json` at a project
root, prompts on stdin for each registered key that is missing or falsy,
and persists the updated object as 2-space-indented JSON.

Modelling choices:
* JSON values are represented by `Json`; numbers are restricted to integers
  (the config file in practice holds only string values, and no claim under
  verification involves fractional numbers).
* The platform pieces (`fs`, `readline`, `JSON.parse`, `JSON.stringify`,
  `process`) are modelled explicitly: the file is a `FileState`, the
  operator is a function from prompt message to the raw line typed,
  `JSON.parse` is the executable parser `jsonParse`, `JSON.stringify` with
  and without the 2-space gap are `stringifyPretty` / `stringifyCompact`.
* Effects of one `getConfigs` run are recorded as an `Event` trace
  (prompts issued, file writes performed), in program order.
-/

namespace TasksSystem

/-- JSON values as produced by `JSON.parse`. Numbers are modelled as
integers; object fields keep their insertion order, as JS objects do for
string keys. -/
inductive Json where
  | null
  | bool (b : Bool)
  | num (n : Int)
  | str (s : String)
  | arr (elems : List Json)
  | obj (fields : List (String × Json))

/-- JS truthiness (`Boolean(v)`): `undefined`/`null`/`false`/`0`/`""` are
falsy; arrays and objects are always truthy. -/
def truthy : Json → Bool
  | .null => false
  | .bool b => b
  | .num n => n != 0
  | .str s => s ≠ ""
  | .arr _ => true
  | .obj _ => true

/-- Property lookup on a JS object: first field with the given key. -/
def getField : List (String × Json) → String → Option Json
  | [], _ => none
  | (k, v) :: rest, key => if k = key then some v else getField rest key

/-- Property assignment `o[key] = v` on a JS object: overwrite in place if
the key is present, else append at the end. -/
def setField : List (String × Json) → String → Json → List (String × Json)
  | [], key, v => [(key, v)]
  | (k, w) :: rest, key, v =>
    if k = key then (k, v) :: rest else (k, w) :: setField rest key v

/-- The nullish-coalescing operator `v ?? fallback`. -/
def nullishCoalesce (v fallback : Json) : Json :=
  match v with
  | .null => fallback
  | v => v

/-- Decimal digits, most significant first, with a recursion budget
(structural recursion, so that concrete values reduce in the kernel). -/
def natDigitsAux : Nat → Nat → List Char
  | 0, _ => []
  | fuel + 1, n =>
    if n < 10 then [Char.ofNat (48 + n)]
    else natDigitsAux fuel (n / 10) ++ [Char.ofNat (48 + n % 10)]

/-- Decimal digits of a natural number, most significant first
(the characters of the usual decimal notation). -/
def natDigits (n : Nat) : List Char := natDigitsAux (n + 1) n

/-- Decimal notation of a natural number as a string (equal to the strings
JS uses for array/string indices in object spread). -/
def natStr (n : Nat) : String := ⟨natDigits n⟩

/-- Index-keyed properties starting at index `i`: the enumerable own
properties of an array or string. -/
def indexProps (g : α → Json) : Nat → List α → List (String × Json)
  | _, [] => []
  | i, x :: xs => (natStr i, g x) :: indexProps g (i + 1) xs

/-- Own enumerable string-keyed properties of a JS value, as copied by the
object-spread `config = { ...v }` on line 44 of the script: objects give
their fields, arrays and strings give index-keyed elements/characters, and
primitives contribute nothing. -/
def spreadProps : Json → List (String × Json)
  | .obj fields => fields
  | .arr elems => indexProps id 0 elems
  | .str s => indexProps (fun c => .str ⟨[c]⟩) 0 s.data
  | .num _ => []
  | .bool _ => []
  | .null => []

/-- Whitespace stripped by `String.prototype.trim` (ASCII portion; the
JS set also has some Unicode space characters, irrelevant here). -/
def isWsChar (c : Char) : Bool :=
  c = ' ' || c = '\n' || c = '\t' || c = '\r' || c = '\x0b' || c = '\x0c'

/-- `s.trim()`: drop leading and trailing whitespace. -/
def jsTrim (s : String) : String :=
  ⟨((s.data.dropWhile isWsChar).reverse.dropWhile isWsChar).reverse⟩

/-! ## `JSON.stringify` -/

/-- Lower-case hexadecimal digit character for `n < 16`. -/
def hexDigit (n : Nat) : Char :=
  if n < 10 then Char.ofNat (48 + n) else Char.ofNat (87 + n)

/-- Escaping of one character inside a JSON string literal, exactly as
`QuoteJSONString` does it: quote, backslash and the five short escapes,
`\u00xx` for the remaining control characters, everything else verbatim. -/
def escapeChar (c : Char) : List Char :=
  if c = '"' then ['\\', '"']
  else if c = '\\' then ['\\', '\\']
  else if c = '\x08' then ['\\', 'b']
  else if c = '\x0c' then ['\\', 'f']
  else if c = '\n' then ['\\', 'n']
  else if c = '\r' then ['\\', 'r']
  else if c = '\t' then ['\\', 't']
  else if c.toNat < 32 then
    ['\\', 'u', '0', '0', hexDigit (c.toNat / 16), hexDigit (c.toNat % 16)]
  else [c]

/-- Escape a whole character sequence. -/
def escapeChars : List Char → List Char
  | [] => []
  | c :: cs => escapeChar c ++ escapeChars cs

/-- A JSON string literal: `"` escaped-content `"`. -/
def quoteChars (s : String) : List Char :=
  '"' :: (escapeChars s.data ++ ['"'])

/-- Decimal notation of an integer. -/
def intChars (n : Int) : List Char :=
  if n < 0 then '-' :: natDigits n.natAbs else natDigits n.natAbs

/-- Indentation produced by `JSON.stringify(v, null, 2)` at nesting
depth `d`. -/
def indentChars (d : Nat) : List Char := List.replicate (2 * d) ' '

mutual
/-- `JSON.stringify(v, null, 2)` at nesting depth `d`: non-empty arrays and
objects put each item on its own line, indented two further spaces. -/
def serializeAt : Nat → Json → List Char
  | _, .null => ['n', 'u', 'l', 'l']
  | _, .bool true => ['t', 'r', 'u', 'e']
  | _, .bool false => ['f', 'a', 'l', 's', 'e']
  | _, .num n => intChars n
  | _, .str s => quoteChars s
  | _, .arr [] => ['[', ']']
  | d, .arr (e :: es) =>
    '[' :: '\n' :: (indentChars (d + 1) ++ serializeAt (d + 1) e ++
      serializeElems (d + 1) es ++ '\n' :: (indentChars d ++ [']']))
  | _, .obj [] => ['{', '}']
  | d, .obj (f :: fs) =>
    '{' :: '\n' :: (indentChars (d + 1) ++ quoteChars f.1 ++
      ':' :: ' ' :: serializeAt (d + 1) f.2 ++
      serializeFields (d + 1) fs ++ '\n' :: (indentChars d ++ ['}']))

/-- Remaining array items after the first, each preceded by `,\n` and
indentation. -/
def serializeElems : Nat → List Json → List Char
  | _, [] => []
  | d, e :: es =>
    ',' :: '\n' :: (indentChars d ++ serializeAt d e ++ serializeElems d es)

/-- Remaining object fields after the first, each preceded by `,\n` and
indentation. -/
def serializeFields : Nat → List (String × Json) → List Char
  | _, [] => []
  | d, f :: fs =>
    ',' :: '\n' :: (indentChars d ++ quoteChars f.1 ++
      ':' :: ' ' :: serializeAt d f.2 ++ serializeFields d fs)
end

mutual
/-- `JSON.stringify(v)` without a gap: no whitespace at all. -/
def serializeC : Json → List Char
  | .null => 'n' :: ['u', 'l', 'l']
  | .bool true => 't' :: ['r', 'u', 'e']
  | .bool false => 'f' :: ['a', 'l', 's', 'e']
  | .num n => intChars n
  | .str s => quoteChars s
  | .arr [] => ['[', ']']
  | .arr (e :: es) => '[' :: (serializeC e ++ serializeCElems es ++ [']'])
  | .obj [] => ['{', '}']
  | .obj (f :: fs) =>
    '{' :: (quoteChars f.1 ++ ':' :: serializeC f.2 ++
      serializeCFields fs ++ ['}'])

/-- Remaining compact array items, comma-separated. -/
def serializeCElems : List Json → List Char
  | [] => []
  | e :: es => ',' :: (serializeC e ++ serializeCElems es)

/-- Remaining compact object fields, comma-separated. -/
def serializeCFields : List (String × Json) → List Char
  | [] => []
  | f :: fs => ',' :: (quoteChars f.1 ++ ':' :: serializeC f.2 ++ serializeCFields fs)
end

/-- `JSON.stringify(config, null, 2)` as a string. -/
def stringifyPretty (config : List (String × Json)) : String :=
  ⟨serializeAt 0 (.obj config)⟩

/-- `JSON.stringify(config)` as a string (single line, used by the
standalone entry point). -/
def stringifyCompact (config : List (String × Json)) : String :=
  ⟨serializeC (.obj config)⟩

/-! ## `JSON.parse`

An executable model of the JSON grammar accepted by `JSON.parse`, with two
simplifications matching the `Json` type: numbers are integers (a fraction
or exponent part is rejected, and leading zeros are tolerated), and a
`\uXXXX` escape denotes a single scalar value (surrogate pairs are not
recombined). Config files hold flat string-valued objects, so neither
simplification is visible in any property proved below. -/

/-- The four insignificant whitespace characters of the JSON grammar. -/
def jsonWs (c : Char) : Bool :=
  c = ' ' || c = '\n' || c = '\t' || c = '\r'

/-- Insignificant JSON whitespace before a token. -/
def skipWs : List Char → List Char
  | [] => []
  | c :: cs => if jsonWs c then skipWs cs else c :: cs

/-- Value of a hexadecimal digit character, if it is one. -/
def hexVal : Char → Option Nat :=
  fun c =>
    if '0' ≤ c ∧ c ≤ '9' then some (c.toNat - 48)
    else if 'a' ≤ c ∧ c ≤ 'f' then some (c.toNat - 87)
    else if 'A' ≤ c ∧ c ≤ 'F' then some (c.toNat - 55)
    else none

/-- Body of a JSON string literal after the opening quote: returns the
decoded characters and the input remaining after the closing quote. Raw
control characters are rejected, escapes are decoded. -/
def parseStringBody : List Char → Option (List Char × List Char)
  | [] => none
  | c :: cs =>
    if c = '"' then some ([], cs)
    else if c = '\\' then
      match cs with
      | [] => none
      | e :: cs2 =>
        if e = '"' then (parseStringBody cs2).map (fun p => ('"' :: p.1, p.2))
        else if e = '\\' then (parseStringBody cs2).map (fun p => ('\\' :: p.1, p.2))
        else if e = '/' then (parseStringBody cs2).map (fun p => ('/' :: p.1, p.2))
        else if e = 'b' then (parseStringBody cs2).map (fun p => ('\x08' :: p.1, p.2))
        else if e = 'f' then (parseStringBody cs2).map (fun p => ('\x0c' :: p.1, p.2))
        else if e = 'n' then (parseStringBody cs2).map (fun p => ('\n' :: p.1, p.2))
        else if e = 'r' then (parseStringBody cs2).map (fun p => ('\r' :: p.1, p.2))
        else if e = 't' then (parseStringBody cs2).map (fun p => ('\t' :: p.1, p.2))
        else if e = 'u' then
          match cs2 with
          | h1 :: h2 :: h3 :: h4 :: cs3 =>
            match hexVal h1, hexVal h2, hexVal h3, hexVal h4 with
            | some a, some b, some c, some d =>
              (parseStringBody cs3).map
                (fun p => (Char.ofNat (((a * 16 + b) * 16 + c) * 16 + d) :: p.1, p.2))
            | _, _, _, _ => none
          | _ => none
        else none
    else if c.toNat < 32 then none
    else (parseStringBody cs).map (fun p => (c :: p.1, p.2))

/-- Greedily consume decimal digits, extending the accumulator. -/
def parseDigits : List Char → Nat → Nat × List Char
  | [], acc => (acc, [])
  | c :: cs, acc =>
    if '0' ≤ c ∧ c ≤ '9' then parseDigits cs (acc * 10 + (c.toNat - 48))
    else (acc, c :: cs)

/-- A run of decimal digits: at least one digit required. -/
def parseNat : List Char → Option (Nat × List Char)
  | [] => none
  | c :: cs =>
    if '0' ≤ c ∧ c ≤ '9' then some (parseDigits cs (c.toNat - 48))
    else none

mutual
/-- Parse one JSON value, skipping leading whitespace; returns the value
and the unconsumed input. `fuel` bounds the recursion. -/
def parseVal : Nat → List Char → Option (Json × List Char)
  | 0, _ => none
  | f + 1, cs =>
    match skipWs cs with
    | 'n' :: 'u' :: 'l' :: 'l' :: rest => some (.null, rest)
    | 't' :: 'r' :: 'u' :: 'e' :: rest => some (.bool true, rest)
    | 'f' :: 'a' :: 'l' :: 's' :: 'e' :: rest => some (.bool false, rest)
    | '"' :: rest =>
      (parseStringBody rest).map (fun p => (.str ⟨p.1⟩, p.2))
    | '[' :: rest =>
      match skipWs rest with
      | ']' :: r => some (.arr [], r)
      | _ => parseElems f rest []
    | '{' :: rest =>
      match skipWs rest with
      | '}' :: r => some (.obj [], r)
      | _ => parseMembers f rest []
    | '-' :: rest =>
      (parseNat rest).map (fun p => (.num (-(p.1 : Int)), p.2))
    | c :: rest =>
      if '0' ≤ c ∧ c ≤ '9' then
        (parseNat (c :: rest)).map (fun p => (.num (p.1 : Int), p.2))
      else none
    | [] => none

/-- Parse the items of a non-empty array, element by element, until `]`. -/
def parseElems : Nat → List Char → List Json → Option (Json × List Char)
  | 0, _, _ => none
  | f + 1, cs, acc =>
    match parseVal f cs with
    | none => none
    | some (v, r) =>
      match skipWs r with
      | ',' :: r2 => parseElems f r2 (acc ++ [v])
      | ']' :: r2 => some (.arr (acc ++ [v]), r2)
      | _ => none

/-- Parse the members of a non-empty object, `"key": value` by
`"key": value`, until `}`. A repeated key overwrites the earlier value in
place, as property definition does in JS. -/
def parseMembers : Nat → List Char → List (String × Json) → Option (Json × List Char)
  | 0, _, _ => none
  | f + 1, cs, acc =>
    match skipWs cs with
    | '"' :: r =>
      match parseStringBody r with
      | none => none
      | some (k, r2) =>
        match skipWs r2 with
        | ':' :: r3 =>
          match parseVal f r3 with
          | none => none
          | some (v, r4) =>
            match skipWs r4 with
            | ',' :: r5 => parseMembers f r5 (setField acc ⟨k⟩ v)
            | '}' :: r5 => some (.obj (setField acc ⟨k⟩ v), r5)
            | _ => none
        | _ => none
    | _ => none
end

/-- `JSON.parse(raw)`: one value, possibly surrounded by whitespace,
covering the whole text; anything else is a syntax error. -/
def jsonParse (raw : String) : Except String Json :=
  match parseVal (raw.length + 1) raw.data with
  | some (v, rest) =>
    if skipWs rest = [] then .ok v else .error "SyntaxError"
  | none => .error "SyntaxError"

/-! ## The script itself -/

/-- The config file at `join(projectRoot, CONFIG_FILENAME)` as the script
can encounter it: absent, present but unreadable (`readFileSync` throws),
or present with some text content. -/
inductive FileState where
  | missing
  | readError
  | content (raw : String)

/-- `existsSync(configPath)`. -/
def existsSync : FileState → Bool
  | .missing => false
  | .readError => true
  | .content _ => true

/-- `readFileSync(configPath, "utf8")`: the text, or a thrown error. -/
def readFileSync : FileState → Except String String
  | .missing => .error "ENOENT"
  | .readError => .error "EIO"
  | .content raw => .ok raw

/-- Lines 40–48 of `getConfigs`: if the file exists, read it, parse it and
spread the parsed value (`config = { ...(parsed ?? {}) }`); the
`try`/`catch` turns any read or parse error into the empty object. -/
def loadConfig (fs : FileState) : List (String × Json) :=
  if existsSync fs then
    match readFileSync fs with
    | .error _ => []
    | .ok raw =>
      match jsonParse raw with
      | .error _ => []
      | .ok parsed => spreadProps (nullishCoalesce parsed (.obj []))
  else []

/-- The `PROMPTS` registry: keys solicited interactively, with the message
shown for each. -/
def PROMPTS : List (String × String) :=
  [("tasksManagerSystemBaseUrl",
    "Tasks manager base URL (e.g. https://your-company.atlassian.net): ")]

/-- The message of the single registered key. -/
def baseUrlMessage : String :=
  "Tasks manager base URL (e.g. https://your-company.atlassian.net): "

/-- The `prompt` helper: given the raw line the operator submits, resolve
with `(answer ?? "").trim()`. The operator is modelled as a function from
prompt message to raw line. -/
def prompt (rawAnswer : String) : String := jsTrim rawAnswer

/-- Truthiness of `config[key]` (`undefined` when the key is absent). -/
def truthyField (config : List (String × Json)) (key : String) : Bool :=
  match getField config key with
  | none => false
  | some v => truthy v

/-- Observable effects of one `getConfigs` run, in program order. -/
inductive Event where
  | prompted (message : String) (answer : String)
  | wrote (text : String)
  deriving Repr, DecidableEq

/-- In-memory state of the `for` loop over `Object.entries(PROMPTS)`:
the config object, the `changed` flag, and the effects so far. -/
structure LoopState where
  config : List (String × Json)
  changed : Bool
  events : List Event

/-- Lines 50–59: for each registry entry, if `config[key]` is falsy, prompt;
a non-empty (trimmed) answer is stored under the key and marks the object
changed, an empty one leaves everything as it was. -/
def promptLoop (answers : String → String) :
    List (String × String) → LoopState → LoopState
  | [], st => st
  | (key, message) :: rest, st =>
    if truthyField st.config key then
      promptLoop answers rest st
    else
      let answer := prompt (answers message)
      let st' : LoopState :=
        { st with events := st.events ++ [.prompted message answer] }
      if answer = "" then
        promptLoop answers rest st'
      else
        promptLoop answers rest
          { st' with
            config := setField st'.config key (.str (jsTrim answer))
            changed := true }

/-- The text `writeFileSync` is given: `JSON.stringify(config, null, 2)`
plus a trailing newline. -/
def saveText (config : List (String × Json)) : String :=
  stringifyPretty config ++ "\n"

/-- Result of one `getConfigs` run: the returned config object and the
observable effects, in order. -/
structure RunResult where
  config : List (String × Json)
  events : List Event

/-- One `getConfigs(projectRoot)` run over file state `fs`, with the
operator's raw answers given by `answers` (a function from prompt message
to the line typed) and `writeOk` telling whether `writeFileSync` succeeds.
Returns the config object and the effect trace, or propagates the write
error (`getConfigs` has no handler around `writeFileSync`). -/
def getConfigs (fs : FileState) (answers : String → String) (writeOk : Bool) :
    Except String RunResult :=
  let config := loadConfig fs
  let st := promptLoop answers PROMPTS ⟨config, false, []⟩
  if st.changed then
    if writeOk then
      .ok ⟨st.config, st.events ++ [.wrote (saveText st.config)]⟩
    else .error "write failure"
  else .ok ⟨st.config, st.events⟩

/-- `getTasksManagerSystemBaseUrl()`: run `getConfigs` and return
`configs.tasksManagerSystemBaseUrl ?? null` — the field's value, with
both an absent field (`undefined`) and a `null` one collapsed to `null`.
Nothing else is collapsed: an empty-string value is returned as is. -/
def getTasksManagerSystemBaseUrl (fs : FileState) (answers : String → String)
    (writeOk : Bool) : Except String Json :=
  (getConfigs fs answers writeOk).map (fun r =>
    match getField r.config "tasksManagerSystemBaseUrl" with
    | none => .null
    | some .null => .null
    | some v => v)

/-- Observable outcome of running the script as a standalone command. -/
structure MainOutcome where
  stdout : Option String
  stderr : Option String
  exitCode : Nat
  deriving Repr, DecidableEq

/-- The `isMain` block: print `JSON.stringify(configs)` to stdout on
success; print the error to stderr and exit with status 1 on failure. -/
def runMain (fs : FileState) (answers : String → String) (writeOk : Bool) :
    MainOutcome :=
  match getConfigs fs answers writeOk with
  | .ok r => ⟨some (stringifyCompact r.config), none, 0⟩
  | .error e => ⟨none, some e, 1⟩

/-! ## Canonical values and parsing fuel -/

/-- An input whose head, if any, is not a decimal digit (so a number read
greedily just before it stops where it should). -/
def noDigitHead : List Char → Prop
  | [] => True
  | c :: _ => ¬('0' ≤ c ∧ c ≤ '9')

/-- One decimal digit folded onto an accumulated value. -/
def digitStep (a : Nat) (c : Char) : Nat := a * 10 + (c.toNat - 48)

/-- `k` does not occur among the field names. -/
def keyNotIn (k : String) : List (String × Json) → Bool
  | [] => true
  | f :: fs => (f.1 != k) && keyNotIn k fs

/-- All field names are distinct. -/
def distinctKeys : List (String × Json) → Bool
  | [] => true
  | f :: fs => keyNotIn f.1 fs && distinctKeys fs

mutual
/-- A value every object of which has distinct field names — exactly the
shape `JSON.parse` can produce. -/
def canonical : Json → Bool
  | .null => true
  | .bool _ => true
  | .num _ => true
  | .str _ => true
  | .arr es => canonicalElems es
  | .obj fs => distinctKeys fs && canonicalFields fs

/-- All elements canonical. -/
def canonicalElems : List Json → Bool
  | [] => true
  | e :: es => canonical e && canonicalElems es

/-- All field values canonical. -/
def canonicalFields : List (String × Json) → Bool
  | [] => true
  | f :: fs => canonical f.2 && canonicalFields fs
end

mutual
/-- Parser fuel sufficient for a value: any budget at least this large
lets `parseVal` consume the value's serialization. -/
def fuelOf : Json → Nat
  | .null => 1
  | .bool _ => 1
  | .num _ => 1
  | .str _ => 1
  | .arr es => 1 + elemsFuel es
  | .obj fs => 1 + fieldsFuel fs

/-- Fuel sufficient for an array's element list. -/
def elemsFuel : List Json → Nat
  | [] => 0
  | e :: es => 1 + fuelOf e + elemsFuel es

/-- Fuel sufficient for an object's member list. -/
def fieldsFuel : List (String × Json) → Nat
  | [] => 0
  | f :: fs => 1 + fuelOf f.2 + fieldsFuel fs
end

/-! ## Basic lemmas about field access -/

theorem getField_setField_self (fields : List (String × Json)) (key : String)
    (v : Json) : getField (setField fields key v) key = some v := by
  induction fields with
  | nil => simp [setField, getField]
  | cons f rest ih =>
    by_cases h : f.1 = key
    · simp [setField, h, getField]
    · simp [setField, h, getField, ih]

theorem getField_setField_ne (fields : List (String × Json)) (key k : String)
    (v : Json) (hne : k ≠ key) :
    getField (setField fields key v) k = getField fields k := by
  induction fields with
  | nil => simp [setField, getField, if_neg (Ne.symm hne)]
  | cons f rest ih =>
    obtain ⟨fk, fv⟩ := f
    by_cases h : fk = key
    · subst h
      simp [setField, getField, if_neg (Ne.symm hne)]
    · simp [setField, h, getField, ih]

theorem setField_of_absent (fields : List (String × Json)) (key : String)
    (v : Json) (h : getField fields key = none) :
    setField fields key v = fields ++ [(key, v)] := by
  induction fields with
  | nil => simp [setField]
  | cons f rest ih =>
    obtain ⟨fk, fv⟩ := f
    by_cases hk : fk = key
    · simp [getField, hk] at h
    · simp only [getField, if_neg hk] at h
      simp [setField, hk, ih h]

/-! ## Whitespace and digit lemmas -/

theorem skipWs_cons_of_not_ws (c : Char) (cs : List Char)
    (h : jsonWs c = false) : skipWs (c :: cs) = c :: cs := by
  simp [skipWs, h]

theorem skipWs_ws_append (ws cs : List Char)
    (h : ∀ c ∈ ws, jsonWs c = true) : skipWs (ws ++ cs) = skipWs cs := by
  induction ws with
  | nil => rfl
  | cons c ws ih =>
    simp [skipWs, h c (by simp), ih (fun c hc => h c (by simp [hc]))]

theorem nlIndent_ws (k : Nat) : ∀ c ∈ '\n' :: indentChars k, jsonWs c = true := by
  intro c hc
  rcases List.mem_cons.mp hc with rfl | hc
  · rfl
  · rw [List.eq_of_mem_replicate hc]
    rfl

theorem parseVal_ws_lead (f : Nat) (ws cs : List Char)
    (h : ∀ c ∈ ws, jsonWs c = true) :
    parseVal f (ws ++ cs) = parseVal f cs := by
  cases f with
  | zero => rfl
  | succ f =>
    unfold parseVal
    rw [skipWs_ws_append ws cs h]

theorem digitChar_bounds :
    ∀ m : Nat, m < 10 → '0' ≤ Char.ofNat (48 + m) ∧ Char.ofNat (48 + m) ≤ '9' := by
  decide

theorem digitChar_toNat : ∀ m : Nat, m < 10 →
    (Char.ofNat (48 + m)).toNat = 48 + m := by
  decide

theorem natDigitsAux_digits (fuel : Nat) :
    ∀ n c, c ∈ natDigitsAux fuel n → '0' ≤ c ∧ c ≤ '9' := by
  induction fuel with
  | zero => intro n c hc; simp [natDigitsAux] at hc
  | succ f ih =>
    intro n c hc
    unfold natDigitsAux at hc
    by_cases h : n < 10
    · simp [h] at hc
      subst hc
      exact digitChar_bounds n h
    · simp [h] at hc
      rcases hc with hc | hc
      · exact ih _ _ hc
      · subst hc
        exact digitChar_bounds _ (Nat.mod_lt _ (by omega))

theorem natDigitsAux_ne_nil (fuel n : Nat) (h : n < fuel) :
    natDigitsAux fuel n ≠ [] := by
  cases fuel with
  | zero => omega
  | succ f =>
    unfold natDigitsAux
    by_cases h10 : n < 10 <;> simp [h10]

theorem natDigitsAux_foldl (fuel : Nat) : ∀ n, n < fuel → ∀ acc,
    List.foldl digitStep acc (natDigitsAux fuel n) =
      acc * 10 ^ (natDigitsAux fuel n).length + n := by
  induction fuel with
  | zero => intro n h; omega
  | succ f ih =>
    intro n h acc
    unfold natDigitsAux
    by_cases h10 : n < 10
    · simp only [h10, if_pos, List.foldl_cons, List.foldl_nil, List.length_cons,
        List.length_nil, pow_one, digitStep, digitChar_toNat n h10, zero_add]
      omega
    · rw [if_neg h10]
      rw [List.foldl_append]
      have hdiv : n / 10 < f := by omega
      rw [ih (n / 10) hdiv acc]
      simp only [List.foldl_cons, List.foldl_nil, digitStep,
        digitChar_toNat _ (Nat.mod_lt n (by omega)), List.length_append,
        List.length_cons, List.length_nil]
      rw [pow_succ, ← mul_assoc]
      have := Nat.div_add_mod n 10
      omega

theorem foldl_natDigits (n : Nat) :
    List.foldl digitStep 0 (natDigits n) = n := by
  have h := natDigitsAux_foldl (n + 1) n (by omega) 0
  simpa [natDigits] using h

theorem natStr_injective (a b : Nat) (h : natStr a = natStr b) : a = b := by
  have hdig : natDigits a = natDigits b := congrArg String.data h
  have ha := foldl_natDigits a
  rw [hdig, foldl_natDigits b] at ha
  omega

theorem parseDigits_digits_lead (ds : List Char)
    (h : ∀ c ∈ ds, '0' ≤ c ∧ c ≤ '9') :
    ∀ rest acc, parseDigits (ds ++ rest) acc =
      parseDigits rest (List.foldl digitStep acc ds) := by
  induction ds with
  | nil => intro rest acc; rfl
  | cons c ds ih =>
    intro rest acc
    have hc := h c (by simp)
    have hstep : parseDigits (c :: (ds ++ rest)) acc =
        parseDigits (ds ++ rest) (digitStep acc c) := by
      simp only [parseDigits]
      rw [if_pos hc]
      rfl
    simp only [List.cons_append, List.foldl_cons]
    rw [hstep, ih (fun x hx => h x (by simp [hx])) rest (digitStep acc c)]

theorem parseDigits_stop (rest : List Char) (acc : Nat)
    (h : noDigitHead rest) : parseDigits rest acc = (acc, rest) := by
  cases rest with
  | nil => rfl
  | cons c cs =>
    unfold parseDigits
    rw [if_neg h]

theorem parseNat_natDigits (n : Nat) (rest : List Char) (h : noDigitHead rest) :
    parseNat (natDigits n ++ rest) = some (n, rest) := by
  rcases hne : natDigits n with _ | ⟨c, ds⟩
  · exact absurd hne (natDigitsAux_ne_nil (n + 1) n (by omega))
  · have hdigs : ∀ x ∈ natDigits n, '0' ≤ x ∧ x ≤ '9' := fun x hx =>
      natDigitsAux_digits (n + 1) n x hx
    rw [hne] at hdigs
    have hc := hdigs c (by simp)
    simp only [List.cons_append, parseNat]
    rw [if_pos hc]
    rw [parseDigits_digits_lead ds (fun x hx => hdigs x (by simp [hx])) rest _]
    rw [parseDigits_stop rest _ h]
    have hfold : List.foldl digitStep 0 (c :: ds) = n := by
      rw [← hne]; exact foldl_natDigits n
    simp only [List.foldl_cons] at hfold
    have h0 : digitStep 0 c = c.toNat - 48 := by simp [digitStep]
    rw [h0] at hfold
    rw [hfold]

/-! ## String-literal roundtrip -/

theorem hexVal_hexDigit : ∀ m : Nat, m < 16 → hexVal (hexDigit m) = some m := by
  decide

theorem parseStringBody_escape (cs rest : List Char) :
    parseStringBody (escapeChars cs ++ '"' :: rest) = some (cs, rest) := by
  induction cs with
  | nil =>
    rw [show escapeChars [] = [] from rfl, List.nil_append]
    rw [parseStringBody.eq_def]
    simp
  | cons c cs ih =>
    simp only [escapeChars, List.append_assoc]
    by_cases h1 : c = '"'
    · subst h1
      rw [show escapeChar '"' = ['\\', '"'] from rfl]
      simp only [List.cons_append, List.nil_append]
      rw [parseStringBody.eq_def]
      simp [ih]
    by_cases h2 : c = '\\'
    · subst h2
      rw [show escapeChar '\\' = ['\\', '\\'] from rfl]
      simp only [List.cons_append, List.nil_append]
      rw [parseStringBody.eq_def]
      simp [ih]
    by_cases h3 : c = '\x08'
    · subst h3
      rw [show escapeChar '\x08' = ['\\', 'b'] from rfl]
      simp only [List.cons_append, List.nil_append]
      rw [parseStringBody.eq_def]
      simp [ih]
    by_cases h4 : c = '\x0c'
    · subst h4
      rw [show escapeChar '\x0c' = ['\\', 'f'] from rfl]
      simp only [List.cons_append, List.nil_append]
      rw [parseStringBody.eq_def]
      simp [ih]
    by_cases h5 : c = '\n'
    · subst h5
      rw [show escapeChar '\n' = ['\\', 'n'] from rfl]
      simp only [List.cons_append, List.nil_append]
      rw [parseStringBody.eq_def]
      simp [ih]
    by_cases h6 : c = '\r'
    · subst h6
      rw [show escapeChar '\r' = ['\\', 'r'] from rfl]
      simp only [List.cons_append, List.nil_append]
      rw [parseStringBody.eq_def]
      simp [ih]
    by_cases h7 : c = '\t'
    · subst h7
      rw [show escapeChar '\t' = ['\\', 't'] from rfl]
      simp only [List.cons_append, List.nil_append]
      rw [parseStringBody.eq_def]
      simp [ih]
    by_cases h8 : c.toNat < 32
    · have hesc : escapeChar c =
          ['\\', 'u', '0', '0', hexDigit (c.toNat / 16), hexDigit (c.toNat % 16)] := by
        unfold escapeChar
        rw [if_neg h1, if_neg h2, if_neg h3, if_neg h4, if_neg h5, if_neg h6,
          if_neg h7, if_pos h8]
      rw [hesc]
      have hdiv : c.toNat / 16 < 16 :=
        Nat.div_lt_of_lt_mul (show c.toNat < 16 * 16 by omega)
      have hmod : c.toNat % 16 < 16 := Nat.mod_lt _ (by omega)
      simp only [List.cons_append, List.nil_append]
      rw [parseStringBody.eq_def]
      simp only [hexVal_hexDigit _ hdiv, hexVal_hexDigit _ hmod, ih,
        show hexVal '0' = some 0 from rfl]
      have harith : c.toNat / 16 * 16 + c.toNat % 16 = c.toNat := by
        have := Nat.div_add_mod c.toNat 16
        omega
      simp [harith, Char.ofNat_toNat]
    · have hesc : escapeChar c = [c] := by
        unfold escapeChar
        rw [if_neg h1, if_neg h2, if_neg h3, if_neg h4, if_neg h5, if_neg h6,
          if_neg h7, if_neg h8]
      rw [hesc]
      simp only [List.cons_append, List.nil_append]
      rw [parseStringBody.eq_def]
      split
      next heq => exact absurd heq (by simp)
      next c2 cs2 heq =>
        injection heq with hc ht
        subst hc
        subst ht
        rw [if_neg h1, if_neg h2, if_neg h8, ih]
        rfl

/-! ## Canonicality: what the parser produces, the mutations preserve -/

theorem keyNotIn_iff (k : String) (fs : List (String × Json)) :
    keyNotIn k fs = true ↔ ∀ f ∈ fs, f.1 ≠ k := by
  induction fs with
  | nil => simp [keyNotIn]
  | cons f fs ih => simp [keyNotIn, ih]

theorem keyNotIn_setField (j k : String) (v : Json) (fs : List (String × Json))
    (hj : keyNotIn j fs = true) (hne : k ≠ j) :
    keyNotIn j (setField fs k v) = true := by
  induction fs with
  | nil => simp [setField, keyNotIn, hne]
  | cons f fs ih =>
    simp only [keyNotIn, Bool.and_eq_true] at hj
    obtain ⟨fk, fv⟩ := f
    simp only at hj
    by_cases hk : fk = k
    · subst hk
      simp [setField, keyNotIn, hj.1, hj.2]
    · simp [setField, hk, keyNotIn, hj.1, ih hj.2]

theorem distinctKeys_setField (k : String) (v : Json) (fs : List (String × Json))
    (h : distinctKeys fs = true) : distinctKeys (setField fs k v) = true := by
  induction fs with
  | nil => simp [setField, distinctKeys, keyNotIn]
  | cons f fs ih =>
    simp only [distinctKeys, Bool.and_eq_true] at h
    obtain ⟨fk, fv⟩ := f
    simp only at h
    by_cases hk : fk = k
    · subst hk
      simp [setField, distinctKeys, h.1, h.2]
    · simp only [setField, if_neg hk, distinctKeys, Bool.and_eq_true]
      exact ⟨keyNotIn_setField fk k v fs h.1 (fun hh => hk hh.symm), ih h.2⟩

theorem canonicalFields_setField (k : String) (v : Json)
    (fs : List (String × Json)) (h : canonicalFields fs = true)
    (hv : canonical v = true) : canonicalFields (setField fs k v) = true := by
  induction fs with
  | nil => simp [setField, canonicalFields, hv]
  | cons f fs ih =>
    simp only [canonicalFields, Bool.and_eq_true] at h
    by_cases hk : f.1 = k
    · simp [setField, hk, canonicalFields, hv, h.2]
    · simp [setField, hk, canonicalFields, h.1, ih h.2]

theorem canonicalElems_append (acc : List Json) (v : Json)
    (hacc : canonicalElems acc = true) (hv : canonical v = true) :
    canonicalElems (acc ++ [v]) = true := by
  induction acc with
  | nil => simp [canonicalElems, hv]
  | cons e es ih =>
    simp only [canonicalElems, Bool.and_eq_true] at hacc
    simp only [List.cons_append, canonicalElems, Bool.and_eq_true]
    exact ⟨hacc.1, ih hacc.2⟩

theorem getField_append_of_none (a b : List (String × Json)) (k : String)
    (h : getField a k = none) : getField (a ++ b) k = getField b k := by
  induction a with
  | nil => rfl
  | cons f fs ih =>
    by_cases hk : f.1 = k
    · simp [getField, hk] at h
    · simp only [getField, if_neg hk] at h
      obtain ⟨fk, fv⟩ := f
      simp only at hk
      simp [getField, hk, ih h]

theorem keyNotIn_getField (k : String) (fs : List (String × Json))
    (h : keyNotIn k fs = true) : getField fs k = none := by
  induction fs with
  | nil => rfl
  | cons f fs ih =>
    simp only [keyNotIn, Bool.and_eq_true, bne_iff_ne, ne_eq] at h
    simp [getField, h.1, ih h.2]

theorem foldl_setField_of_distinct (l : List (String × Json)) :
    ∀ acc, distinctKeys l = true → (∀ f ∈ l, getField acc f.1 = none) →
    List.foldl (fun a f => setField a f.1 f.2) acc l = acc ++ l := by
  induction l with
  | nil => intro acc _ _; simp
  | cons f fs ih =>
    intro acc hd habs
    simp only [distinctKeys, Bool.and_eq_true] at hd
    simp only [List.foldl_cons]
    rw [setField_of_absent acc f.1 f.2 (habs f (by simp))]
    rw [ih (acc ++ [(f.1, f.2)]) hd.2 ?_]
    · simp
    · intro g hg
      rw [getField_append_of_none _ _ _ (habs g (by simp [hg]))]
      have hne : g.1 ≠ f.1 := (keyNotIn_iff f.1 fs).mp hd.1 g hg
      have hne2 : ¬f.1 = g.1 := fun hh => hne hh.symm
      simp [getField, hne2]

/-- Everything `parseVal` (and its two loops) returns is canonical: object
members are accumulated with `setField`, so field names stay distinct. -/
theorem parse_canonical (f : Nat) :
    (∀ cs v r, parseVal f cs = some (v, r) → canonical v = true) ∧
    (∀ cs acc v r, parseElems f cs acc = some (v, r) →
      canonicalElems acc = true → canonical v = true) ∧
    (∀ cs acc v r, parseMembers f cs acc = some (v, r) →
      distinctKeys acc = true → canonicalFields acc = true →
      canonical v = true) := by
  induction f with
  | zero =>
    refine ⟨fun cs v r h => ?_, fun cs acc v r h => ?_, fun cs acc v r h => ?_⟩ <;>
      simp [parseVal, parseElems, parseMembers] at h
  | succ f ih =>
    obtain ⟨ihV, ihE, ihM⟩ := ih
    refine ⟨?_, ?_, ?_⟩
    · intro cs v r h
      rw [parseVal.eq_def] at h
      split at h
      · exact absurd h (by simp)
      · rename_i x1 x2 x3 f2 heq2
        obtain rfl : f2 = f := by omega
        split at h
        · cases h; rfl
        · cases h; rfl
        · cases h; rfl
        · obtain ⟨p, hp, hv⟩ := Option.map_eq_some'.mp h
          cases hv; rfl
        · split at h
          · cases h; rfl
          · exact ihE _ _ _ _ h rfl
        · split at h
          · cases h; rfl
          · exact ihM _ _ _ _ h rfl rfl
        · obtain ⟨p, hp, hv⟩ := Option.map_eq_some'.mp h
          cases hv; rfl
        · split at h
          · obtain ⟨p, hp, hv⟩ := Option.map_eq_some'.mp h
            cases hv; rfl
          · exact absurd h (by simp)
        · exact absurd h (by simp)
    · intro cs acc v r h hacc
      rw [parseElems.eq_def] at h
      split at h
      · exact absurd h (by simp)
      · rename_i x1 x2 x3 x4 x5 f2 heq2
        obtain rfl : f2 = f := by omega
        split at h
        · exact absurd h (by simp)
        · rename_i v0 r0 heq0
          split at h
          · exact ihE _ _ _ _ h
              (canonicalElems_append _ v0 hacc (ihV _ _ _ heq0))
          · cases h
            exact canonicalElems_append _ v0 hacc (ihV _ _ _ heq0)
          · exact absurd h (by simp)
    · intro cs acc v r h hd hcf
      rw [parseMembers.eq_def] at h
      split at h
      · exact absurd h (by simp)
      · rename_i x1 x2 x3 x4 x5 f2 heq2
        obtain rfl : f2 = f := by omega
        split at h
        · split at h
          · exact absurd h (by simp)
          · rename_i k r2 hkey
            split at h
            · split at h
              · exact absurd h (by simp)
              · rename_i v0 r4 hval0
                split at h
                · exact ihM _ _ _ _ h
                    (distinctKeys_setField _ _ _ hd)
                    (canonicalFields_setField _ _ _ hcf (ihV _ _ _ hval0))
                · cases h
                  show (distinctKeys _ && canonicalFields _) = true
                  rw [Bool.and_eq_true]
                  exact ⟨distinctKeys_setField _ _ _ hd,
                    canonicalFields_setField _ _ _ hcf (ihV _ _ _ hval0)⟩
                · exact absurd h (by simp)
            · exact absurd h (by simp)
        · exact absurd h (by simp)

theorem canonicalElems_mem (es : List Json) (h : canonicalElems es = true) :
    ∀ e ∈ es, canonical e = true := by
  induction es with
  | nil => simp
  | cons e es ih =>
    simp only [canonicalElems, Bool.and_eq_true] at h
    intro x hx
    rcases List.mem_cons.mp hx with rfl | hx
    · exact h.1
    · exact ih h.2 x hx

theorem keyNotIn_indexProps (g : α → Json) (xs : List α) :
    ∀ i k, i < k → keyNotIn (natStr i) (indexProps g k xs) = true := by
  induction xs with
  | nil => intro i k _; rfl
  | cons x xs ih =>
    intro i k hik
    simp only [indexProps, keyNotIn, Bool.and_eq_true, bne_iff_ne, ne_eq]
    refine ⟨fun hh => ?_, ih i (k + 1) (by omega)⟩
    have := natStr_injective _ _ hh
    omega

theorem distinctKeys_indexProps (g : α → Json) (xs : List α) :
    ∀ k, distinctKeys (indexProps g k xs) = true := by
  induction xs with
  | nil => intro k; rfl
  | cons x xs ih =>
    intro k
    simp only [indexProps, distinctKeys, Bool.and_eq_true]
    exact ⟨keyNotIn_indexProps g xs k (k + 1) (by omega), ih (k + 1)⟩

theorem canonicalFields_indexProps (g : α → Json) (xs : List α) :
    ∀ k, (∀ x ∈ xs, canonical (g x) = true) →
    canonicalFields (indexProps g k xs) = true := by
  induction xs with
  | nil => intro k _; rfl
  | cons x xs ih =>
    intro k hg
    simp only [indexProps, canonicalFields, Bool.and_eq_true]
    exact ⟨hg x (by simp), ih (k + 1) (fun y hy => hg y (by simp [hy]))⟩

theorem spreadProps_canonical (v : Json) (hv : canonical v = true) :
    distinctKeys (spreadProps v) = true ∧
    canonicalFields (spreadProps v) = true := by
  cases v with
  | null => exact ⟨rfl, rfl⟩
  | bool b => exact ⟨rfl, rfl⟩
  | num n => exact ⟨rfl, rfl⟩
  | str s =>
    exact ⟨distinctKeys_indexProps _ _ 0,
      canonicalFields_indexProps _ _ 0 (fun _ _ => rfl)⟩
  | arr es =>
    exact ⟨distinctKeys_indexProps _ _ 0,
      canonicalFields_indexProps _ _ 0 (fun x hx => canonicalElems_mem es hv x hx)⟩
  | obj fields =>
    simp only [canonical, Bool.and_eq_true] at hv
    exact ⟨hv.1, hv.2⟩

theorem jsonParse_canonical (raw : String) (v : Json)
    (h : jsonParse raw = .ok v) : canonical v = true := by
  unfold jsonParse at h
  split at h
  · rename_i p heq
    split at h
    · cases h
      exact (parse_canonical _).1 _ _ _ heq
    · exact absurd h (by simp)
  · exact absurd h (by simp)

theorem loadConfig_canonical (fs : FileState) :
    distinctKeys (loadConfig fs) = true ∧
    canonicalFields (loadConfig fs) = true := by
  cases fs with
  | missing => exact ⟨rfl, rfl⟩
  | readError => exact ⟨rfl, rfl⟩
  | content raw =>
    unfold loadConfig
    simp only [existsSync, readFileSync, if_true]
    cases hp : jsonParse raw with
    | error e => exact ⟨rfl, rfl⟩
    | ok v =>
      have hv := jsonParse_canonical raw v hp
      cases v with
      | null => exact ⟨rfl, rfl⟩
      | bool b => exact spreadProps_canonical _ hv
      | num n => exact spreadProps_canonical _ hv
      | str s => exact spreadProps_canonical _ hv
      | arr es => exact spreadProps_canonical _ hv
      | obj fields => exact spreadProps_canonical _ hv

theorem natDigits_length_pos (n : Nat) : 0 < (natDigits n).length :=
  List.length_pos.mpr (natDigitsAux_ne_nil (n + 1) n (by omega))

theorem intChars_length_pos (n : Int) : 0 < (intChars n).length := by
  unfold intChars
  by_cases h : n < 0
  · simp [h]
  · simp [h, natDigits_length_pos]

mutual
theorem fuelOf_le_length (d : Nat) (v : Json) :
    fuelOf v ≤ (serializeAt d v).length := by
  match v with
  | .null => simp [fuelOf, serializeAt]
  | .bool true => simp [fuelOf, serializeAt]
  | .bool false => simp [fuelOf, serializeAt]
  | .num n =>
    have := intChars_length_pos n
    simp only [fuelOf, serializeAt]
    omega
  | .str s => simp [fuelOf, serializeAt, quoteChars]
  | .arr [] => simp [fuelOf, elemsFuel, serializeAt]
  | .arr (e :: es) =>
    have h1 := fuelOf_le_length (d + 1) e
    have h2 := elemsFuel_le_length (d + 1) es
    simp only [fuelOf, elemsFuel, serializeAt, List.length_cons,
      List.length_append]
    omega
  | .obj [] => simp [fuelOf, fieldsFuel, serializeAt]
  | .obj (f :: fs) =>
    have h1 := fuelOf_le_length (d + 1) f.2
    have h2 := fieldsFuel_le_length (d + 1) fs
    simp only [fuelOf, fieldsFuel, serializeAt, List.length_cons,
      List.length_append]
    omega

theorem elemsFuel_le_length (d : Nat) (es : List Json) :
    elemsFuel es ≤ (serializeElems d es).length + 1 := by
  match es with
  | [] => simp [elemsFuel]
  | e :: es =>
    have h1 := fuelOf_le_length d e
    have h2 := elemsFuel_le_length d es
    simp only [elemsFuel, serializeElems, List.length_cons, List.length_append]
    omega

theorem fieldsFuel_le_length (d : Nat) (fs : List (String × Json)) :
    fieldsFuel fs ≤ (serializeFields d fs).length + 1 := by
  match fs with
  | [] => simp [fieldsFuel]
  | f :: fs =>
    have h1 := fuelOf_le_length d f.2
    have h2 := fieldsFuel_le_length d fs
    simp only [fieldsFuel, serializeFields, List.length_cons, List.length_append]
    omega
end

/-! ## Step equations of the parser -/

theorem parseVal_succ (f : Nat) (cs : List Char) :
    parseVal (f + 1) cs =
      match skipWs cs with
      | 'n' :: 'u' :: 'l' :: 'l' :: rest => some (.null, rest)
      | 't' :: 'r' :: 'u' :: 'e' :: rest => some (.bool true, rest)
      | 'f' :: 'a' :: 'l' :: 's' :: 'e' :: rest => some (.bool false, rest)
      | '"' :: rest => (parseStringBody rest).map (fun p => (.str ⟨p.1⟩, p.2))
      | '[' :: rest =>
        match skipWs rest with
        | ']' :: r => some (.arr [], r)
        | _ => parseElems f rest []
      | '{' :: rest =>
        match skipWs rest with
        | '}' :: r => some (.obj [], r)
        | _ => parseMembers f rest []
      | '-' :: rest => (parseNat rest).map (fun p => (.num (-(p.1 : Int)), p.2))
      | c :: rest =>
        if '0' ≤ c ∧ c ≤ '9' then
          (parseNat (c :: rest)).map (fun p => (.num (p.1 : Int), p.2))
        else none
      | [] => none := by
  rw [parseVal.eq_def]

theorem parseElems_succ (f : Nat) (cs : List Char) (acc : List Json) :
    parseElems (f + 1) cs acc =
      match parseVal f cs with
      | none => none
      | some (v, r) =>
        match skipWs r with
        | ',' :: r2 => parseElems f r2 (acc ++ [v])
        | ']' :: r2 => some (.arr (acc ++ [v]), r2)
        | _ => none := by
  rw [parseElems.eq_def]

theorem parseMembers_succ (f : Nat) (cs : List Char) (acc : List (String × Json)) :
    parseMembers (f + 1) cs acc =
      match skipWs cs with
      | '"' :: r =>
        match parseStringBody r with
        | none => none
        | some (k, r2) =>
          match skipWs r2 with
          | ':' :: r3 =>
            match parseVal f r3 with
            | none => none
            | some (v, r4) =>
              match skipWs r4 with
              | ',' :: r5 => parseMembers f r5 (setField acc ⟨k⟩ v)
              | '}' :: r5 => some (.obj (setField acc ⟨k⟩ v), r5)
              | _ => none
          | _ => none
      | _ => none := by
  rw [parseMembers.eq_def]

/-! ## Head characters of serializations -/

theorem digit_not_ws (c : Char) (hc : '0' ≤ c ∧ c ≤ '9') : jsonWs c = false := by
  rcases Bool.eq_false_or_eq_true (jsonWs c) with h | h
  · exfalso
    unfold jsonWs at h
    simp only [Bool.or_eq_true, decide_eq_true_eq] at h
    rcases h with ((rfl | rfl) | rfl) | rfl <;> exact absurd hc (by decide)
  · exact h

theorem noDigitHead_cons (c : Char) (X : List Char)
    (h : ¬('0' ≤ c ∧ c ≤ '9')) : noDigitHead (c :: X) := h

theorem natDigits_head_digit (n : Nat) :
    ∃ c cs, natDigits n = c :: cs ∧ ('0' ≤ c ∧ c ≤ '9') := by
  rcases hne : natDigits n with _ | ⟨c, cs⟩
  · exact absurd hne (natDigitsAux_ne_nil (n + 1) n (by omega))
  · refine ⟨c, cs, rfl, ?_⟩
    refine natDigitsAux_digits (n + 1) n c ?_
    rw [show natDigitsAux (n + 1) n = c :: cs from hne]
    exact List.mem_cons_self c cs

theorem serializeAt_head (d : Nat) (v : Json) :
    ∃ c cs, serializeAt d v = c :: cs ∧ jsonWs c = false ∧ c ≠ ']' ∧ c ≠ '}' := by
  cases v with
  | null => exact ⟨'n', _, rfl, rfl, by decide, by decide⟩
  | bool b =>
    cases b with
    | true => exact ⟨'t', _, rfl, rfl, by decide, by decide⟩
    | false => exact ⟨'f', _, rfl, rfl, by decide, by decide⟩
  | num n =>
    have hser : serializeAt d (.num n) = intChars n := rfl
    rw [hser]
    unfold intChars
    by_cases h : n < 0
    · rw [if_pos h]
      exact ⟨'-', _, rfl, rfl, by decide, by decide⟩
    · rw [if_neg h]
      obtain ⟨c, cs, hcs, hd⟩ := natDigits_head_digit n.natAbs
      refine ⟨c, cs, hcs, digit_not_ws c hd, ?_, ?_⟩
      · intro heq
        subst heq
        exact absurd hd (by decide)
      · intro heq
        subst heq
        exact absurd hd (by decide)
  | str s => exact ⟨'"', _, rfl, rfl, by decide, by decide⟩
  | arr es =>
    cases es with
    | nil => exact ⟨'[', _, rfl, rfl, by decide, by decide⟩
    | cons e es => exact ⟨'[', _, rfl, rfl, by decide, by decide⟩
  | obj fs =>
    cases fs with
    | nil => exact ⟨'{', _, rfl, rfl, by decide, by decide⟩
    | cons f fs => exact ⟨'{', _, rfl, rfl, by decide, by decide⟩

/-! ## The parser inverts the 2-space serializer -/

mutual
/-- `parseVal` consumes exactly the serialization of a canonical value and
returns that value, leaving the (non-digit-headed) remainder untouched. -/
theorem parseVal_serializeAt (v : Json) (hc : canonical v = true) (d f : Nat)
    (hf : fuelOf v ≤ f) (rest : List Char) (hrest : noDigitHead rest) :
    parseVal f (serializeAt d v ++ rest) = some (v, rest) := by
  match v, hc, hf with
  | .null, hc, hf =>
    obtain ⟨f', rfl⟩ : ∃ f', f = f' + 1 := ⟨f - 1, by simp [fuelOf] at hf; omega⟩
    rw [show serializeAt d .null = ['n', 'u', 'l', 'l'] from rfl]
    simp only [List.cons_append, List.nil_append]
    rw [parseVal_succ]
    rfl
  | .bool true, hc, hf =>
    obtain ⟨f', rfl⟩ : ∃ f', f = f' + 1 := ⟨f - 1, by simp [fuelOf] at hf; omega⟩
    rw [show serializeAt d (.bool true) = ['t', 'r', 'u', 'e'] from rfl]
    simp only [List.cons_append, List.nil_append]
    rw [parseVal_succ]
    rfl
  | .bool false, hc, hf =>
    obtain ⟨f', rfl⟩ : ∃ f', f = f' + 1 := ⟨f - 1, by simp [fuelOf] at hf; omega⟩
    rw [show serializeAt d (.bool false) = ['f', 'a', 'l', 's', 'e'] from rfl]
    simp only [List.cons_append, List.nil_append]
    rw [parseVal_succ]
    rfl
  | .num n, hc, hf =>
    obtain ⟨f', rfl⟩ : ∃ f', f = f' + 1 := ⟨f - 1, by simp [fuelOf] at hf; omega⟩
    rw [show serializeAt d (.num n) = intChars n from rfl]
    unfold intChars
    by_cases hneg : n < 0
    · rw [if_pos hneg]
      simp only [List.cons_append]
      rw [parseVal_succ]
      rw [skipWs_cons_of_not_ws '-' _ (by decide)]
      show (parseNat (natDigits n.natAbs ++ rest)).map
        (fun p => (Json.num (-(p.1 : Int)), p.2)) = some (.num n, rest)
      rw [parseNat_natDigits _ _ hrest]
      simp only [Option.map_some']
      have hval : (-(n.natAbs : Int)) = n := by omega
      rw [hval]
    · rw [if_neg hneg]
      obtain ⟨c, ds, hds, hdig⟩ := natDigits_head_digit n.natAbs
      rw [hds]
      simp only [List.cons_append]
      rw [parseVal_succ]
      rw [skipWs_cons_of_not_ws c _ (digit_not_ws c hdig)]
      split
      · rename_i heq
        injection heq with h1 _
        subst h1
        exact absurd hdig (by decide)
      · rename_i heq
        injection heq with h1 _
        subst h1
        exact absurd hdig (by decide)
      · rename_i heq
        injection heq with h1 _
        subst h1
        exact absurd hdig (by decide)
      · rename_i heq
        injection heq with h1 _
        subst h1
        exact absurd hdig (by decide)
      · rename_i heq
        injection heq with h1 _
        subst h1
        exact absurd hdig (by decide)
      · rename_i heq
        injection heq with h1 _
        subst h1
        exact absurd hdig (by decide)
      · rename_i heq
        injection heq with h1 _
        subst h1
        exact absurd hdig (by decide)
      · rename_i heq
        injection heq with h1 h2
        subst h1
        subst h2
        rw [if_pos hdig]
        rw [show c :: (ds ++ rest) = natDigits n.natAbs ++ rest from by rw [hds, List.cons_append]]
        rw [parseNat_natDigits _ _ hrest]
        simp only [Option.map_some']
        have hval : ((n.natAbs : Int)) = n := by omega
        rw [hval]
      · rename_i heq
        exact absurd heq (by simp)
  | .str s, hc, hf =>
    obtain ⟨f', rfl⟩ : ∃ f', f = f' + 1 := ⟨f - 1, by simp [fuelOf] at hf; omega⟩
    rw [show serializeAt d (.str s) = quoteChars s from rfl]
    unfold quoteChars
    simp only [List.cons_append, List.append_assoc, List.singleton_append]
    rw [parseVal_succ]
    rw [skipWs_cons_of_not_ws '"' _ (by decide)]
    show (parseStringBody (escapeChars s.data ++ '"' :: rest)).map
      (fun p => (Json.str ⟨p.1⟩, p.2)) = some (.str s, rest)
    rw [parseStringBody_escape]
    rfl
  | .arr [], hc, hf =>
    obtain ⟨f', rfl⟩ : ∃ f', f = f' + 1 := ⟨f - 1, by simp [fuelOf, elemsFuel] at hf; omega⟩
    rw [show serializeAt d (.arr []) = ['[', ']'] from rfl]
    simp only [List.cons_append, List.nil_append]
    rw [parseVal_succ]
    rfl
  | .arr (e :: es), hc, hf =>
    simp only [canonical, canonicalElems, Bool.and_eq_true] at hc
    simp only [fuelOf] at hf
    obtain ⟨f', rfl⟩ : ∃ f', f = f' + 1 := ⟨f - 1, by omega⟩
    simp only [serializeAt]
    simp only [List.cons_append, List.append_assoc, List.singleton_append]
    rw [parseVal_succ]
    rw [skipWs_cons_of_not_ws '[' _ (by decide)]
    show (match skipWs ('\n' :: (indentChars (d + 1) ++ (serializeAt (d + 1) e ++
        (serializeElems (d + 1) es ++ '\n' :: (indentChars d ++ ']' :: rest))))) with
      | ']' :: r => some (Json.arr [], r)
      | _ => parseElems f' ('\n' :: (indentChars (d + 1) ++ (serializeAt (d + 1) e ++
          (serializeElems (d + 1) es ++ '\n' :: (indentChars d ++ ']' :: rest))))) []) =
      some (.arr (e :: es), rest)
    obtain ⟨c0, cs0, hser, hnws, hnrb, _⟩ := serializeAt_head (d + 1) e
    have hsk : skipWs ('\n' :: (indentChars (d + 1) ++ (serializeAt (d + 1) e ++
        (serializeElems (d + 1) es ++ '\n' :: (indentChars d ++ ']' :: rest))))) =
        c0 :: (cs0 ++ (serializeElems (d + 1) es ++
          '\n' :: (indentChars d ++ ']' :: rest))) := by
      rw [show ('\n' :: (indentChars (d + 1) ++ (serializeAt (d + 1) e ++
          (serializeElems (d + 1) es ++ '\n' :: (indentChars d ++ ']' :: rest))))) =
        ('\n' :: indentChars (d + 1)) ++ (serializeAt (d + 1) e ++
          (serializeElems (d + 1) es ++ '\n' :: (indentChars d ++ ']' :: rest)))
        from rfl]
      rw [skipWs_ws_append _ _ (nlIndent_ws (d + 1)), hser]
      simp only [List.cons_append]
      rw [skipWs_cons_of_not_ws c0 _ hnws]
    rw [hsk]
    split
    · rename_i heq
      injection heq with h1 _
      exact absurd h1 hnrb
    · have := parseElems_serialize e es hc.1 hc.2 d f'
        (by simp only [elemsFuel] at hf ⊢; omega) [] rest hrest
      simpa using this
  | .obj [], hc, hf =>
    obtain ⟨f', rfl⟩ : ∃ f', f = f' + 1 := ⟨f - 1, by simp [fuelOf, fieldsFuel] at hf; omega⟩
    rw [show serializeAt d (.obj []) = ['{', '}'] from rfl]
    simp only [List.cons_append, List.nil_append]
    rw [parseVal_succ]
    rfl
  | .obj ((k, w) :: fs), hc, hf =>
    simp only [canonical, canonicalFields, distinctKeys, Bool.and_eq_true] at hc
    simp only [fuelOf] at hf
    obtain ⟨f', rfl⟩ : ∃ f', f = f' + 1 := ⟨f - 1, by omega⟩
    simp only [serializeAt]
    simp only [List.cons_append, List.append_assoc, List.singleton_append]
    rw [parseVal_succ]
    rw [skipWs_cons_of_not_ws '{' _ (by decide)]
    show (match skipWs ('\n' :: (indentChars (d + 1) ++ (quoteChars k ++
        ':' :: ' ' :: (serializeAt (d + 1) w ++ (serializeFields (d + 1) fs ++
          '\n' :: (indentChars d ++ '}' :: rest)))))) with
      | '}' :: r => some (Json.obj [], r)
      | _ => parseMembers f' ('\n' :: (indentChars (d + 1) ++ (quoteChars k ++
          ':' :: ' ' :: (serializeAt (d + 1) w ++ (serializeFields (d + 1) fs ++
            '\n' :: (indentChars d ++ '}' :: rest)))))) []) =
      some (.obj ((k, w) :: fs), rest)
    have hsk : skipWs ('\n' :: (indentChars (d + 1) ++ (quoteChars k ++
        ':' :: ' ' :: (serializeAt (d + 1) w ++ (serializeFields (d + 1) fs ++
          '\n' :: (indentChars d ++ '}' :: rest)))))) =
        '"' :: (escapeChars k.data ++ '"' :: (':' :: ' ' :: (serializeAt (d + 1) w ++
          (serializeFields (d + 1) fs ++ '\n' :: (indentChars d ++ '}' :: rest))))) := by
      rw [show ('\n' :: (indentChars (d + 1) ++ (quoteChars k ++
          ':' :: ' ' :: (serializeAt (d + 1) w ++ (serializeFields (d + 1) fs ++
            '\n' :: (indentChars d ++ '}' :: rest)))))) =
        ('\n' :: indentChars (d + 1)) ++ (quoteChars k ++
          ':' :: ' ' :: (serializeAt (d + 1) w ++ (serializeFields (d + 1) fs ++
            '\n' :: (indentChars d ++ '}' :: rest)))) from rfl]
      rw [skipWs_ws_append _ _ (nlIndent_ws (d + 1))]
      unfold quoteChars
      simp only [List.cons_append, List.append_assoc, List.singleton_append,
        List.nil_append]
      rw [skipWs_cons_of_not_ws '"' _ (by decide)]
    rw [hsk]
    split
    · rename_i heq
      injection heq with h1 _
      exact absurd h1 (by decide)
    · have hmem := parseMembers_serialize k w fs hc.2.1 hc.2.2 d f'
        (by simp only [fieldsFuel] at hf ⊢; omega) [] rest hrest
      have hfold : List.foldl (fun a p => setField a p.1 p.2) [] ((k, w) :: fs) =
          (k, w) :: fs := by
        refine foldl_setField_of_distinct _ [] ?_ (fun f hf => rfl)
        show distinctKeys _ = true
        simp only [distinctKeys, Bool.and_eq_true]
        exact ⟨hc.1.1, hc.1.2⟩
      rw [hmem, hfold]
termination_by f

/-- The element loop consumes `,`-separated serialized items up to the
closing `]`, appending them to the accumulator. -/
theorem parseElems_serialize (e : Json) (es : List Json)
    (hce : canonical e = true) (hces : canonicalElems es = true) (d g : Nat)
    (hg : elemsFuel (e :: es) ≤ g) (acc : List Json) (rest : List Char)
    (hrest : noDigitHead rest) :
    parseElems g ('\n' :: (indentChars (d + 1) ++ (serializeAt (d + 1) e ++
      (serializeElems (d + 1) es ++ '\n' :: (indentChars d ++ ']' :: rest))))) acc =
      some (.arr (acc ++ e :: es), rest) := by
  simp only [elemsFuel] at hg
  obtain ⟨g', rfl⟩ : ∃ g', g = g' + 1 := ⟨g - 1, by omega⟩
  rw [parseElems_succ]
  cases es with
  | nil =>
    have hv : parseVal g' ('\n' :: (indentChars (d + 1) ++ (serializeAt (d + 1) e ++
        (serializeElems (d + 1) [] ++ '\n' :: (indentChars d ++ ']' :: rest))))) =
        some (e, serializeElems (d + 1) [] ++ '\n' :: (indentChars d ++ ']' :: rest)) := by
      rw [show ('\n' :: (indentChars (d + 1) ++ (serializeAt (d + 1) e ++
          (serializeElems (d + 1) [] ++ '\n' :: (indentChars d ++ ']' :: rest))))) =
        ('\n' :: indentChars (d + 1)) ++ (serializeAt (d + 1) e ++
          (serializeElems (d + 1) [] ++ '\n' :: (indentChars d ++ ']' :: rest)))
        from rfl]
      rw [parseVal_ws_lead _ _ _ (nlIndent_ws (d + 1))]
      exact parseVal_serializeAt e hce (d + 1) g' (by simp [elemsFuel] at hg; omega) _
        (by show noDigitHead ([] ++ '\n' :: _); exact noDigitHead_cons _ _ (by decide))
    rw [hv]
    show (match skipWs (serializeElems (d + 1) [] ++
        '\n' :: (indentChars d ++ ']' :: rest)) with
      | ',' :: r2 => parseElems g' r2 (acc ++ [e])
      | ']' :: r2 => some (Json.arr (acc ++ [e]), r2)
      | _ => none) = some (.arr (acc ++ e :: []), rest)
    rw [show serializeElems (d + 1) ([] : List Json) ++
        '\n' :: (indentChars d ++ ']' :: rest) =
      ('\n' :: indentChars d) ++ (']' :: rest) from rfl]
    rw [skipWs_ws_append _ _ (nlIndent_ws d), skipWs_cons_of_not_ws ']' _ (by decide)]
    rfl
  | cons e2 es' =>
    simp only [canonicalElems, Bool.and_eq_true] at hces
    have hv : parseVal g' ('\n' :: (indentChars (d + 1) ++ (serializeAt (d + 1) e ++
        (serializeElems (d + 1) (e2 :: es') ++ '\n' :: (indentChars d ++ ']' :: rest))))) =
        some (e, serializeElems (d + 1) (e2 :: es') ++
          '\n' :: (indentChars d ++ ']' :: rest)) := by
      rw [show ('\n' :: (indentChars (d + 1) ++ (serializeAt (d + 1) e ++
          (serializeElems (d + 1) (e2 :: es') ++
            '\n' :: (indentChars d ++ ']' :: rest))))) =
        ('\n' :: indentChars (d + 1)) ++ (serializeAt (d + 1) e ++
          (serializeElems (d + 1) (e2 :: es') ++
            '\n' :: (indentChars d ++ ']' :: rest))) from rfl]
      rw [parseVal_ws_lead _ _ _ (nlIndent_ws (d + 1))]
      refine parseVal_serializeAt e hce (d + 1) g' (by simp [elemsFuel] at hg; omega) _ ?_
      show noDigitHead (serializeElems (d + 1) (e2 :: es') ++ _)
      simp only [serializeElems, List.cons_append]
      exact noDigitHead_cons _ _ (by decide)
    rw [hv]
    show (match skipWs (serializeElems (d + 1) (e2 :: es') ++
        '\n' :: (indentChars d ++ ']' :: rest)) with
      | ',' :: r2 => parseElems g' r2 (acc ++ [e])
      | ']' :: r2 => some (Json.arr (acc ++ [e]), r2)
      | _ => none) = some (.arr (acc ++ e :: e2 :: es'), rest)
    simp only [serializeElems, List.cons_append, List.append_assoc]
    rw [skipWs_cons_of_not_ws ',' _ (by decide)]
    have := parseElems_serialize e2 es' hces.1 hces.2 d g'
      (by simp only [elemsFuel] at hg ⊢; omega) (acc ++ [e]) rest hrest
    rw [show (acc ++ [e]) ++ e2 :: es' = acc ++ e :: e2 :: es' from by simp] at this
    exact this
termination_by g

/-- The member loop consumes `"key": value` pairs up to the closing `}`,
folding them into the accumulator with `setField`. -/
theorem parseMembers_serialize (k : String) (w : Json) (fs : List (String × Json))
    (hcw : canonical w = true) (hcfs : canonicalFields fs = true) (d g : Nat)
    (hg : fieldsFuel ((k, w) :: fs) ≤ g) (acc : List (String × Json))
    (rest : List Char) (hrest : noDigitHead rest) :
    parseMembers g ('\n' :: (indentChars (d + 1) ++ (quoteChars k ++
      ':' :: ' ' :: (serializeAt (d + 1) w ++ (serializeFields (d + 1) fs ++
        '\n' :: (indentChars d ++ '}' :: rest)))))) acc =
      some (.obj (List.foldl (fun a p => setField a p.1 p.2) acc ((k, w) :: fs)),
        rest) := by
  simp only [fieldsFuel] at hg
  obtain ⟨g', rfl⟩ : ∃ g', g = g' + 1 := ⟨g - 1, by omega⟩
  rw [parseMembers_succ]
  rcases fs with _ | ⟨⟨k2, w2⟩, fs'⟩
  ·
    have hsk : skipWs ('\n' :: (indentChars (d + 1) ++ (quoteChars k ++
        ':' :: ' ' :: (serializeAt (d + 1) w ++ (serializeFields (d + 1) ([] : List (String × Json)) ++
          '\n' :: (indentChars d ++ '}' :: rest)))))) =
        '"' :: (escapeChars k.data ++ '"' :: ':' :: ' ' :: (serializeAt (d + 1) w ++
          (serializeFields (d + 1) ([] : List (String × Json)) ++ '\n' :: (indentChars d ++ '}' :: rest)))) := by
      rw [show ('\n' :: (indentChars (d + 1) ++ (quoteChars k ++
          ':' :: ' ' :: (serializeAt (d + 1) w ++ (serializeFields (d + 1) ([] : List (String × Json)) ++
            '\n' :: (indentChars d ++ '}' :: rest)))))) =
        ('\n' :: indentChars (d + 1)) ++ (quoteChars k ++
          ':' :: ' ' :: (serializeAt (d + 1) w ++ (serializeFields (d + 1) ([] : List (String × Json)) ++
            '\n' :: (indentChars d ++ '}' :: rest)))) from rfl]
      rw [skipWs_ws_append _ _ (nlIndent_ws (d + 1))]
      unfold quoteChars
      simp only [List.cons_append, List.append_assoc, List.singleton_append,
        List.nil_append]
      rw [skipWs_cons_of_not_ws '"' _ (by decide)]
    rw [hsk]
    split
    · rename_i r heq
      injection heq with _ hr
      subst hr
      rw [parseStringBody_escape]
      show (match skipWs (':' :: ' ' :: (serializeAt (d + 1) w ++
          (serializeFields (d + 1) ([] : List (String × Json)) ++ '\n' :: (indentChars d ++ '}' :: rest)))) with
        | ':' :: r3 =>
          match parseVal g' r3 with
          | none => none
          | some (v, r4) =>
            match skipWs r4 with
            | ',' :: r5 => parseMembers g' r5 (setField acc ⟨k.data⟩ v)
            | '}' :: r5 => some (Json.obj (setField acc ⟨k.data⟩ v), r5)
            | _ => none
        | _ => none) =
        some (.obj (List.foldl (fun a p => setField a p.1 p.2) acc [(k, w)]), rest)
      rw [skipWs_cons_of_not_ws ':' _ (by decide)]
      show (match parseVal g' (' ' :: (serializeAt (d + 1) w ++
          (serializeFields (d + 1) ([] : List (String × Json)) ++ '\n' :: (indentChars d ++ '}' :: rest)))) with
        | none => none
        | some (v, r4) =>
          match skipWs r4 with
          | ',' :: r5 => parseMembers g' r5 (setField acc ⟨k.data⟩ v)
          | '}' :: r5 => some (Json.obj (setField acc ⟨k.data⟩ v), r5)
          | _ => none) =
        some (.obj (List.foldl (fun a p => setField a p.1 p.2) acc [(k, w)]), rest)
      have hv : parseVal g' (' ' :: (serializeAt (d + 1) w ++
          (serializeFields (d + 1) ([] : List (String × Json)) ++ '\n' :: (indentChars d ++ '}' :: rest)))) =
          some (w, serializeFields (d + 1) ([] : List (String × Json)) ++
            '\n' :: (indentChars d ++ '}' :: rest)) := by
        rw [show (' ' :: (serializeAt (d + 1) w ++ (serializeFields (d + 1) ([] : List (String × Json)) ++
            '\n' :: (indentChars d ++ '}' :: rest)))) =
          [' '] ++ (serializeAt (d + 1) w ++ (serializeFields (d + 1) ([] : List (String × Json)) ++
            '\n' :: (indentChars d ++ '}' :: rest))) from rfl]
        rw [parseVal_ws_lead _ _ _ (by intro c hc2; simp at hc2; subst hc2; rfl)]
        refine parseVal_serializeAt w hcw (d + 1) g' (by omega) _ ?_
        show noDigitHead ([] ++ '\n' :: _)
        exact noDigitHead_cons _ _ (by decide)
      rw [hv]
      show (match skipWs (serializeFields (d + 1) ([] : List (String × Json)) ++
          '\n' :: (indentChars d ++ '}' :: rest)) with
        | ',' :: r5 => parseMembers g' r5 (setField acc ⟨k.data⟩ w)
        | '}' :: r5 => some (Json.obj (setField acc ⟨k.data⟩ w), r5)
        | _ => none) =
        some (.obj (List.foldl (fun a p => setField a p.1 p.2) acc [(k, w)]), rest)
      rw [show serializeFields (d + 1) ([] : List (String × Json)) ++
          '\n' :: (indentChars d ++ '}' :: rest) =
        ('\n' :: indentChars d) ++ ('}' :: rest) from rfl]
      rw [skipWs_ws_append _ _ (nlIndent_ws d), skipWs_cons_of_not_ws '}' _ (by decide)]
      rfl
    · rename_i hne
      exact absurd rfl (hne _)
  ·
    simp only [canonicalFields, Bool.and_eq_true] at hcfs
    have hsk : skipWs ('\n' :: (indentChars (d + 1) ++ (quoteChars k ++
        ':' :: ' ' :: (serializeAt (d + 1) w ++ (serializeFields (d + 1) ((k2, w2) :: fs') ++
          '\n' :: (indentChars d ++ '}' :: rest)))))) =
        '"' :: (escapeChars k.data ++ '"' :: ':' :: ' ' :: (serializeAt (d + 1) w ++
          (serializeFields (d + 1) ((k2, w2) :: fs') ++ '\n' :: (indentChars d ++ '}' :: rest)))) := by
      rw [show ('\n' :: (indentChars (d + 1) ++ (quoteChars k ++
          ':' :: ' ' :: (serializeAt (d + 1) w ++ (serializeFields (d + 1) ((k2, w2) :: fs') ++
            '\n' :: (indentChars d ++ '}' :: rest)))))) =
        ('\n' :: indentChars (d + 1)) ++ (quoteChars k ++
          ':' :: ' ' :: (serializeAt (d + 1) w ++ (serializeFields (d + 1) ((k2, w2) :: fs') ++
            '\n' :: (indentChars d ++ '}' :: rest)))) from rfl]
      rw [skipWs_ws_append _ _ (nlIndent_ws (d + 1))]
      unfold quoteChars
      simp only [List.cons_append, List.append_assoc, List.singleton_append,
        List.nil_append]
      rw [skipWs_cons_of_not_ws '"' _ (by decide)]
    rw [hsk]
    split
    · rename_i r heq
      injection heq with _ hr
      subst hr
      rw [parseStringBody_escape]
      show (match skipWs (':' :: ' ' :: (serializeAt (d + 1) w ++
          (serializeFields (d + 1) ((k2, w2) :: fs') ++ '\n' :: (indentChars d ++ '}' :: rest)))) with
        | ':' :: r3 =>
          match parseVal g' r3 with
          | none => none
          | some (v, r4) =>
            match skipWs r4 with
            | ',' :: r5 => parseMembers g' r5 (setField acc ⟨k.data⟩ v)
            | '}' :: r5 => some (Json.obj (setField acc ⟨k.data⟩ v), r5)
            | _ => none
        | _ => none) =
        some (.obj (List.foldl (fun a p => setField a p.1 p.2) acc ((k, w) :: (k2, w2) :: fs')), rest)
      rw [skipWs_cons_of_not_ws ':' _ (by decide)]
      show (match parseVal g' (' ' :: (serializeAt (d + 1) w ++
          (serializeFields (d + 1) ((k2, w2) :: fs') ++ '\n' :: (indentChars d ++ '}' :: rest)))) with
        | none => none
        | some (v, r4) =>
          match skipWs r4 with
          | ',' :: r5 => parseMembers g' r5 (setField acc ⟨k.data⟩ v)
          | '}' :: r5 => some (Json.obj (setField acc ⟨k.data⟩ v), r5)
          | _ => none) =
        some (.obj (List.foldl (fun a p => setField a p.1 p.2) acc ((k, w) :: (k2, w2) :: fs')), rest)
      have hv : parseVal g' (' ' :: (serializeAt (d + 1) w ++
          (serializeFields (d + 1) ((k2, w2) :: fs') ++ '\n' :: (indentChars d ++ '}' :: rest)))) =
          some (w, serializeFields (d + 1) ((k2, w2) :: fs') ++
            '\n' :: (indentChars d ++ '}' :: rest)) := by
        rw [show (' ' :: (serializeAt (d + 1) w ++ (serializeFields (d + 1) ((k2, w2) :: fs') ++
            '\n' :: (indentChars d ++ '}' :: rest)))) =
          [' '] ++ (serializeAt (d + 1) w ++ (serializeFields (d + 1) ((k2, w2) :: fs') ++
            '\n' :: (indentChars d ++ '}' :: rest))) from rfl]
        rw [parseVal_ws_lead _ _ _ (by intro c hc2; simp at hc2; subst hc2; rfl)]
        refine parseVal_serializeAt w hcw (d + 1) g' (by omega) _ ?_
        show noDigitHead (serializeFields (d + 1) ((k2, w2) :: fs') ++ _)
        simp only [serializeFields, List.cons_append]
        exact noDigitHead_cons _ _ (by decide)
      rw [hv]
      show (match skipWs (serializeFields (d + 1) ((k2, w2) :: fs') ++
          '\n' :: (indentChars d ++ '}' :: rest)) with
        | ',' :: r5 => parseMembers g' r5 (setField acc ⟨k.data⟩ w)
        | '}' :: r5 => some (Json.obj (setField acc ⟨k.data⟩ w), r5)
        | _ => none) =
        some (.obj (List.foldl (fun a p => setField a p.1 p.2) acc
          ((k, w) :: (k2, w2) :: fs')), rest)
      simp only [serializeFields, List.cons_append, List.append_assoc]
      rw [skipWs_cons_of_not_ws ',' _ (by decide)]
      exact parseMembers_serialize k2 w2 fs' hcfs.1 hcfs.2 d g'
        (by simp only [fieldsFuel] at hg ⊢; omega) (setField acc ⟨k.data⟩ w) rest hrest
    · rename_i hne
      exact absurd rfl (hne _)
termination_by g
end

/-! ## The compact serialization stays on one line -/

theorem nlCons {c d : Char} {l : List Char} (h1 : c ≠ d) (h2 : c ∉ l) :
    c ∉ d :: l := by
  simp only [List.mem_cons, not_or]
  exact ⟨h1, h2⟩

theorem nlAppend {c : Char} {a b : List Char} (ha : c ∉ a) (hb : c ∉ b) :
    c ∉ a ++ b := by
  simp only [List.mem_append, not_or]
  exact ⟨ha, hb⟩

theorem hexDigit_ne_newline : ∀ m : Nat, m < 16 → ¬('\n' = hexDigit m) := by
  decide

theorem digitChar_ne_newline : ∀ m : Nat, m < 10 → ¬('\n' = Char.ofNat (48 + m)) := by
  decide

theorem escapeChar_no_newline (c : Char) : '\n' ∉ escapeChar c := by
  unfold escapeChar
  by_cases h1 : c = '"'
  · simp [h1]
  by_cases h2 : c = '\\'
  · simp [h1, h2]
  by_cases h3 : c = '\x08'
  · simp [h1, h2, h3]
  by_cases h4 : c = '\x0c'
  · simp [h1, h2, h3, h4]
  by_cases h5 : c = '\n'
  · simp [h1, h2, h3, h4, h5]
  by_cases h6 : c = '\r'
  · simp [h1, h2, h3, h4, h5, h6]
  by_cases h7 : c = '\t'
  · simp [h1, h2, h3, h4, h5, h6, h7]
  by_cases h8 : c.toNat < 32
  · simp [h1, h2, h3, h4, h5, h6, h7, h8,
      hexDigit_ne_newline _ (Nat.div_lt_of_lt_mul (show c.toNat < 16 * 16 by omega)),
      hexDigit_ne_newline _ (Nat.mod_lt _ (by omega))]
  · simp [h1, h2, h3, h4, h5, h6, h7, h8]
    exact fun hh => h5 hh.symm

theorem escapeChars_no_newline (cs : List Char) : '\n' ∉ escapeChars cs := by
  induction cs with
  | nil => simp [escapeChars]
  | cons c cs ih =>
    simp only [escapeChars, List.mem_append]
    exact fun h => h.elim (escapeChar_no_newline c) ih

theorem quoteChars_no_newline (s : String) : '\n' ∉ quoteChars s := by
  simp only [quoteChars, List.mem_cons, List.mem_append, List.mem_singleton]
  push_neg
  exact ⟨by decide, escapeChars_no_newline s.data, by decide⟩

theorem natDigitsAux_no_newline (fuel : Nat) :
    ∀ n, '\n' ∉ natDigitsAux fuel n := by
  induction fuel with
  | zero => intro n; simp [natDigitsAux]
  | succ f ih =>
    intro n
    unfold natDigitsAux
    by_cases h : n < 10
    · simp [h, digitChar_ne_newline n h]
    · simp [h, ih, digitChar_ne_newline _ (Nat.mod_lt _ (by omega))]

theorem intChars_no_newline (n : Int) : '\n' ∉ intChars n := by
  unfold intChars
  by_cases h : n < 0
  · simp [h, natDigits, natDigitsAux_no_newline]
  · simp [h, natDigits, natDigitsAux_no_newline]

mutual
theorem serializeC_no_newline (v : Json) : '\n' ∉ serializeC v := by
  match v with
  | .null => simp [serializeC]
  | .bool true => simp [serializeC]
  | .bool false => simp [serializeC]
  | .num n => exact intChars_no_newline n
  | .str s => exact quoteChars_no_newline s
  | .arr [] => simp [serializeC]
  | .arr (e :: es) =>
    simp only [serializeC]
    exact nlCons (by decide)
      (nlAppend (nlAppend (serializeC_no_newline e)
        (serializeCElems_no_newline es)) (by decide))
  | .obj [] => simp [serializeC]
  | .obj (f :: fs) =>
    simp only [serializeC]
    exact nlCons (by decide)
      (nlAppend (nlAppend (nlAppend (quoteChars_no_newline f.1)
          (nlCons (by decide) (serializeC_no_newline f.2)))
        (serializeCFields_no_newline fs)) (by decide))

theorem serializeCElems_no_newline (es : List Json) : '\n' ∉ serializeCElems es := by
  match es with
  | [] => simp [serializeCElems]
  | e :: es =>
    simp only [serializeCElems]
    exact nlCons (by decide)
      (nlAppend (serializeC_no_newline e) (serializeCElems_no_newline es))

theorem serializeCFields_no_newline (fs : List (String × Json)) :
    '\n' ∉ serializeCFields fs := by
  match fs with
  | [] => simp [serializeCFields]
  | f :: fs =>
    simp only [serializeCFields]
    exact nlCons (by decide)
      (nlAppend (nlAppend (quoteChars_no_newline f.1)
          (nlCons (by decide) (serializeC_no_newline f.2)))
        (serializeCFields_no_newline fs))
end

theorem stringifyCompact_no_newline (config : List (String × Json)) :
    '\n' ∉ (stringifyCompact config).data :=
  serializeC_no_newline (.obj config)

/-- `JSON.parse` inverts `saveText` (pretty stringify plus trailing
newline) on objects with distinct keys and canonical values. -/
theorem jsonParse_saveText (m : List (String × Json))
    (hd : distinctKeys m = true) (hc : canonicalFields m = true) :
    jsonParse (saveText m) = .ok (.obj m) := by
  have hdata : (saveText m).data = serializeAt 0 (.obj m) ++ ['\n'] := by
    show (stringifyPretty m ++ "\n").data = _
    rw [String.data_append]
    rfl
  have hcanon : canonical (.obj m) = true := by
    show (distinctKeys m && canonicalFields m) = true
    rw [hd, hc]
    rfl
  have hlen : (saveText m).length = (serializeAt 0 (.obj m)).length + 1 := by
    rw [show (saveText m).length = (saveText m).data.length from rfl, hdata]
    simp
  have hfuel : fuelOf (.obj m) ≤ (saveText m).length + 1 := by
    have h1 := fuelOf_le_length 0 (.obj m)
    omega
  have hp := parseVal_serializeAt (.obj m) hcanon 0 ((saveText m).length + 1)
    hfuel ['\n'] (noDigitHead_cons '\n' [] (by decide))
  unfold jsonParse
  rw [hdata, hp]
  rfl

/-! ## Claims -/

/-- C1: when the loaded config maps every registered key to a non-empty
string, `getConfigs` issues no prompt, performs no write, and returns the
loaded mapping unchanged. -/
theorem getConfigs_no_effects_when_filled (fs : FileState)
    (answers : String → String) (writeOk : Bool)
    (h : ∀ key ∈ PROMPTS.map Prod.fst, ∃ s : String,
      getField (loadConfig fs) key = some (.str s) ∧ s ≠ "") :
    getConfigs fs answers writeOk = .ok ⟨loadConfig fs, []⟩ := by
  obtain ⟨s, hs, hne⟩ := h "tasksManagerSystemBaseUrl" (by simp [PROMPTS])
  simp [getConfigs, PROMPTS, promptLoop, truthyField, hs, truthy, hne]

/-- Witness for C1: a file already holding a non-empty base URL resolves
with no prompt and no write. -/
theorem getConfigs_no_effects_when_filled_witness :
    getConfigs
      (.content "\x7b\"tasksManagerSystemBaseUrl\": \"https://a.example.net\"\x7d")
      (fun _ => "ignored") true =
    .ok ⟨loadConfig
      (.content "\x7b\"tasksManagerSystemBaseUrl\": \"https://a.example.net\"\x7d"), []⟩ :=
  getConfigs_no_effects_when_filled _ _ _ (by
    intro key hk
    simp [PROMPTS] at hk
    subst hk
    exact ⟨"https://a.example.net", rfl, by decide⟩)

/-- C2: the load phase returns an empty mapping when the file is missing,
and returns an empty mapping (the parse error being caught, not escaping)
when the file exists but its content is not valid JSON. -/
theorem loadConfig_missing_or_invalid :
    loadConfig .missing = [] ∧
    ∀ raw msg, jsonParse raw = .error msg → loadConfig (.content raw) = [] := by
  refine ⟨rfl, ?_⟩
  intro raw msg h
  simp [loadConfig, existsSync, readFileSync, h]

/-- Witness for C2: the literal text `not json` is rejected by the parser
and loads as the empty mapping. -/
theorem loadConfig_missing_or_invalid_witness :
    loadConfig (.content "not json") = [] :=
  loadConfig_missing_or_invalid.2 "not json" "SyntaxError" rfl

/-- C9: any error raised while reading an existing config file is caught
inside the load phase, which returns the empty mapping rather than letting
the exception escape. -/
theorem loadConfig_catches_read_errors (fs : FileState) (msg : String)
    (hex : existsSync fs = true) (hread : readFileSync fs = .error msg) :
    loadConfig fs = [] := by
  simp [loadConfig, hex, hread]

/-- Witness for C9: a file that exists but cannot be read loads as the
empty mapping. -/
theorem loadConfig_catches_read_errors_witness :
    loadConfig .readError = [] :=
  loadConfig_catches_read_errors .readError "EIO" rfl rfl

/-- C10: when the file's content parses as JSON that is neither an object
nor `null`, the load phase returns the object-spread of that value: empty
for numbers and booleans, but an index-keyed mapping of characters or
elements for strings and arrays. -/
theorem loadConfig_spreads_parsed_value :
    (∀ raw v, jsonParse raw = .ok v →
      loadConfig (.content raw) = spreadProps (nullishCoalesce v (.obj []))) ∧
    (∀ n, spreadProps (.num n) = []) ∧
    (∀ b, spreadProps (.bool b) = []) ∧
    loadConfig (.content "\"ab\"") = [("0", .str "a"), ("1", .str "b")] ∧
    loadConfig (.content "[5, true]") = [("0", .num 5), ("1", .bool true)] ∧
    loadConfig (.content "7") = [] ∧
    loadConfig (.content "true") = [] := by
  refine ⟨?_, fun _ => rfl, fun _ => rfl, by rfl, by rfl, by rfl, by rfl⟩
  intro raw v h
  simp [loadConfig, existsSync, readFileSync, h]

/-- Witness for C10: a file holding the JSON string `"ab"` loads as the
index-keyed mapping of its characters. -/
theorem loadConfig_spreads_parsed_value_witness :
    loadConfig (.content "\"ab\"") =
      spreadProps (nullishCoalesce (.str "ab") (.obj [])) :=
  loadConfig_spreads_parsed_value.1 "\"ab\"" (.str "ab") rfl

/-- C3 counterexample: with the key present but holding the empty string
and the operator declining the prompt, the key's value is still empty after
resolution, yet the accessor returns that empty string — not the null
indicator (`"" ?? null` evaluates to `""`). -/
theorem getTasksManagerSystemBaseUrl_empty_without_null :
    getTasksManagerSystemBaseUrl
      (.content "\x7b\"tasksManagerSystemBaseUrl\": \"\"\x7d") (fun _ => "") true =
      .ok (.str "") ∧ Json.str "" ≠ Json.null :=
  ⟨by rfl, fun h => Json.noConfusion h⟩

/-- C3 amended: the accessor runs `getConfigs` and returns the resolved
value of `tasksManagerSystemBaseUrl`; the null indicator is returned
exactly when the key is absent from (or `null` in) the resolved mapping —
in particular when a missing key's prompt was declined — while a present
non-null value, even the empty string, is returned as is. -/
theorem getTasksManagerSystemBaseUrl_spec (fs : FileState)
    (answers : String → String) (writeOk : Bool) (r : RunResult)
    (h : getConfigs fs answers writeOk = .ok r) :
    (getField r.config "tasksManagerSystemBaseUrl" = none →
      getTasksManagerSystemBaseUrl fs answers writeOk = .ok .null) ∧
    (getField r.config "tasksManagerSystemBaseUrl" = some .null →
      getTasksManagerSystemBaseUrl fs answers writeOk = .ok .null) ∧
    (∀ v, getField r.config "tasksManagerSystemBaseUrl" = some v →
      v ≠ .null → getTasksManagerSystemBaseUrl fs answers writeOk = .ok v) := by
  have hbase : getTasksManagerSystemBaseUrl fs answers writeOk =
      .ok (match getField r.config "tasksManagerSystemBaseUrl" with
        | none => Json.null
        | some Json.null => Json.null
        | some v => v) := by
    unfold getTasksManagerSystemBaseUrl
    rw [h]
    rfl
  refine ⟨fun hn => ?_, fun hn => ?_, fun v hv hne => ?_⟩
  · rw [hbase, hn]
  · rw [hbase, hn]
  · rw [hbase, hv]
    cases v with
    | null => exact absurd rfl hne
    | bool b => rfl
    | num n => rfl
    | str s => rfl
    | arr es => rfl
    | obj fields => rfl

/-- Witness for C3 amended: a missing file and a declined prompt leave the
key absent, and the accessor returns the null indicator. -/
theorem getTasksManagerSystemBaseUrl_spec_witness :
    getTasksManagerSystemBaseUrl .missing (fun _ => "") true = .ok .null :=
  (getTasksManagerSystemBaseUrl_spec .missing (fun _ => "") true
    ⟨[], [.prompted baseUrlMessage ""]⟩ (by rfl)).1 rfl

/-- C4: keys outside the registry pass through resolution untouched, both
in the returned mapping and in any file text written, and the returned
mapping keeps every loaded key (known or unknown). -/
theorem getConfigs_preserves_unknown_keys (fs : FileState)
    (answers : String → String) (writeOk : Bool) (r : RunResult)
    (h : getConfigs fs answers writeOk = .ok r) :
    (∀ k, k ∉ PROMPTS.map Prod.fst →
      getField r.config k = getField (loadConfig fs) k) ∧
    (∀ k, (getField (loadConfig fs) k).isSome → (getField r.config k).isSome) ∧
    (∀ t, Event.wrote t ∈ r.events → t = saveText r.config) := by
  have hk : ∀ k : String, k ∉ PROMPTS.map Prod.fst ↔
      k ≠ "tasksManagerSystemBaseUrl" := by
    intro k
    simp [PROMPTS]
  by_cases ht : truthyField (loadConfig fs) "tasksManagerSystemBaseUrl"
  · rw [show getConfigs fs answers writeOk = .ok ⟨loadConfig fs, []⟩ by
      simp [getConfigs, PROMPTS, promptLoop, ht]] at h
    cases h
    exact ⟨fun k _ => rfl, fun k hs => hs, by simp⟩
  · by_cases ha : prompt (answers baseUrlMessage) = ""
    · rw [show getConfigs fs answers writeOk =
          .ok ⟨loadConfig fs, [.prompted baseUrlMessage ""]⟩ by
        simp [getConfigs, PROMPTS, promptLoop, ht, baseUrlMessage] at ha ⊢
        simp [ha]] at h
      cases h
      exact ⟨fun k _ => rfl, fun k hs => hs, by simp⟩
    · by_cases hw : writeOk
      · subst hw
        rw [show getConfigs fs answers true =
            .ok ⟨setField (loadConfig fs) "tasksManagerSystemBaseUrl"
                  (.str (jsTrim (prompt (answers baseUrlMessage)))),
                [.prompted baseUrlMessage (prompt (answers baseUrlMessage)),
                 .wrote (saveText (setField (loadConfig fs)
                   "tasksManagerSystemBaseUrl"
                   (.str (jsTrim (prompt (answers baseUrlMessage))))))]⟩ by
          simp [getConfigs, PROMPTS, promptLoop, ht, baseUrlMessage] at ha ⊢
          simp [ha]] at h
        cases h
        refine ⟨fun k hne => ?_, fun k hs => ?_, by simp⟩
        · exact getField_setField_ne _ _ _ _ ((hk k).mp hne)
        · by_cases hkey : k = "tasksManagerSystemBaseUrl"
          · subst hkey
            simp [getField_setField_self]
          · rw [getField_setField_ne _ _ _ _ hkey]
            exact hs
      · exfalso
        simp only [Bool.not_eq_true] at hw
        subst hw
        rw [show getConfigs fs answers false = .error "write failure" by
          simp [getConfigs, PROMPTS, promptLoop, ht, baseUrlMessage] at ha ⊢
          simp [ha]] at h
        cases h

/-- Witness for C4: a file holding only an unregistered key keeps it, with
its value, after the registered key is answered. -/
theorem getConfigs_preserves_unknown_keys_witness :
    getField ([("other", Json.str "x"),
      ("tasksManagerSystemBaseUrl", Json.str "https://y")]) "other" =
      getField (loadConfig (.content "\x7b\"other\": \"x\"\x7d")) "other" :=
  (getConfigs_preserves_unknown_keys (.content "\x7b\"other\": \"x\"\x7d")
    (fun _ => "https://y") true
    ⟨[("other", .str "x"), ("tasksManagerSystemBaseUrl", .str "https://y")],
     [.prompted baseUrlMessage "https://y",
      .wrote (saveText [("other", .str "x"),
        ("tasksManagerSystemBaseUrl", .str "https://y")])]⟩
    (by rfl)).1 "other" (by decide)

/-- C5: a whitespace-only (or empty) raw answer trims to the empty string
and is treated as declined: the config comes back exactly as loaded (so an
absent key stays absent), nothing is written, and any prompt that was
issued carries the empty trimmed answer. -/
theorem declined_prompt_changes_nothing (fs : FileState)
    (answers : String → String) (writeOk : Bool)
    (hws : ∀ c ∈ (answers baseUrlMessage).data, isWsChar c = true) :
    prompt (answers baseUrlMessage) = "" ∧
    ∃ evs, getConfigs fs answers writeOk = .ok ⟨loadConfig fs, evs⟩ ∧
      (∀ t, Event.wrote t ∉ evs) ∧
      (∀ m a, Event.prompted m a ∈ evs → a = "") := by
  have htrim : prompt (answers baseUrlMessage) = "" := by
    unfold prompt jsTrim
    rw [List.dropWhile_eq_nil_iff.mpr (fun c hc => hws c hc)]
    rfl
  refine ⟨htrim, ?_⟩
  by_cases ht : truthyField (loadConfig fs) "tasksManagerSystemBaseUrl"
  · exact ⟨[], by simp [getConfigs, PROMPTS, promptLoop, ht], by simp, by simp⟩
  · refine ⟨[.prompted baseUrlMessage ""], ?_, by simp, by simp⟩
    simp only [getConfigs, PROMPTS, promptLoop, ht, baseUrlMessage] at htrim ⊢
    simp [htrim]

/-- Witness for C5: three spaces are trimmed to nothing and leave a missing
file unresolved with no write. -/
theorem declined_prompt_changes_nothing_witness :
    prompt ((fun _ => "   ") baseUrlMessage) = "" ∧
    ∃ evs, getConfigs .missing (fun _ => "   ") true = .ok ⟨loadConfig .missing, evs⟩ ∧
      (∀ t, Event.wrote t ∉ evs) ∧
      (∀ m a, Event.prompted m a ∈ evs → a = "") :=
  declined_prompt_changes_nothing .missing (fun _ => "   ") true (by decide)

/-- C6: setting one key in a loaded mapping gives a mapping where that key
holds the assigned value and every other key is unchanged, and saving it
(2-space-indented JSON plus trailing newline) then loading reads the very
same mapping back. -/
theorem save_load_roundtrip (fs : FileState) (k v : String) :
    getField (setField (loadConfig fs) k (.str v)) k = some (.str v) ∧
    (∀ k2, k2 ≠ k →
      getField (setField (loadConfig fs) k (.str v)) k2 =
        getField (loadConfig fs) k2) ∧
    loadConfig (.content (saveText (setField (loadConfig fs) k (.str v)))) =
      setField (loadConfig fs) k (.str v) := by
  obtain ⟨hd, hc⟩ := loadConfig_canonical fs
  refine ⟨getField_setField_self _ _ _,
    fun k2 hk2 => getField_setField_ne _ _ _ _ hk2, ?_⟩
  have hd2 := distinctKeys_setField k (.str v) _ hd
  have hc2 := canonicalFields_setField k (.str v) _ hc rfl
  have hload : ∀ raw m2, jsonParse raw = .ok (.obj m2) →
      loadConfig (.content raw) = m2 := by
    intro raw m2 hjp
    show (if existsSync (.content raw) then
        match readFileSync (.content raw) with
        | .error _ => []
        | .ok raw2 =>
          match jsonParse raw2 with
          | .error _ => []
          | .ok parsed => spreadProps (nullishCoalesce parsed (.obj []))
      else []) = m2
    rw [if_pos (show existsSync (.content raw) = true from rfl)]
    show (match jsonParse raw with
      | .error _ => []
      | .ok parsed => spreadProps (nullishCoalesce parsed (.obj []))) = m2
    rw [hjp]
    rfl
  exact hload _ _ (jsonParse_saveText _ hd2 hc2)

/-- Witness for C6: adding one key over a missing file, saving and loading
returns exactly the one-key mapping, with lookups behaving as stated. -/
theorem save_load_roundtrip_witness :
    getField (setField (loadConfig .missing) "k" (.str "u")) "k" =
      some (.str "u") ∧
    (∀ k2, k2 ≠ "k" →
      getField (setField (loadConfig .missing) "k" (.str "u")) k2 =
        getField (loadConfig .missing) k2) ∧
    loadConfig (.content (saveText (setField (loadConfig .missing) "k"
        (.str "u")))) =
      setField (loadConfig .missing) "k" (.str "u") :=
  save_load_roundtrip .missing "k" "u"

/-- Exhaustive case analysis of one `getConfigs` run: the key is already
truthy (skip, no effects), or the prompt is declined (one prompt event,
nothing stored), or it is answered (store, then write — or propagate the
write failure). -/
theorem getConfigs_cases (fs : FileState) (answers : String → String)
    (writeOk : Bool) :
    (truthyField (loadConfig fs) "tasksManagerSystemBaseUrl" = true ∧
      getConfigs fs answers writeOk = .ok ⟨loadConfig fs, []⟩) ∨
    (truthyField (loadConfig fs) "tasksManagerSystemBaseUrl" = false ∧
      prompt (answers baseUrlMessage) = "" ∧
      getConfigs fs answers writeOk =
        .ok ⟨loadConfig fs, [.prompted baseUrlMessage ""]⟩) ∨
    (truthyField (loadConfig fs) "tasksManagerSystemBaseUrl" = false ∧
      ∃ a, a ≠ "" ∧ prompt (answers baseUrlMessage) = a ∧
        getConfigs fs answers writeOk =
          if writeOk then
            .ok ⟨setField (loadConfig fs) "tasksManagerSystemBaseUrl"
                  (.str (jsTrim a)),
                [.prompted baseUrlMessage a,
                 .wrote (saveText (setField (loadConfig fs)
                   "tasksManagerSystemBaseUrl" (.str (jsTrim a))))]⟩
          else .error "write failure") := by
  by_cases ht : truthyField (loadConfig fs) "tasksManagerSystemBaseUrl"
  · exact .inl ⟨ht, by simp [getConfigs, PROMPTS, promptLoop, ht]⟩
  · by_cases ha : prompt (answers baseUrlMessage) = ""
    · refine .inr (.inl ⟨by simp [ht], ha, ?_⟩)
      simp only [getConfigs, PROMPTS, promptLoop, ht, baseUrlMessage] at ha ⊢
      simp [ha]
    · refine .inr (.inr ⟨by simp [ht], prompt (answers baseUrlMessage), ha, rfl, ?_⟩)
      by_cases hw : writeOk <;>
        · simp only [getConfigs, PROMPTS, promptLoop, ht, baseUrlMessage] at ha ⊢
          simp [ha, hw]

/-- C7: a write failure during the save step is propagated out of
`getConfigs` (nothing catches it there); run as a standalone command, a
resolution failure is printed to standard error with a non-zero exit
status, while a success prints the resolved configuration to standard
output as a single-line (newline-free) JSON string. -/
theorem write_failure_propagates (fs : FileState) (answers : String → String) :
    ((promptLoop answers PROMPTS ⟨loadConfig fs, false, []⟩).changed = true →
      getConfigs fs answers false = .error "write failure") ∧
    (∀ e, getConfigs fs answers false = .error e →
      runMain fs answers false = ⟨none, some e, 1⟩) ∧
    (∀ writeOk r, getConfigs fs answers writeOk = .ok r →
      runMain fs answers writeOk = ⟨some (stringifyCompact r.config), none, 0⟩ ∧
      '\n' ∉ (stringifyCompact r.config).data) := by
  refine ⟨fun hch => ?_, fun e he => ?_, fun wOk r hr => ?_⟩
  · simp [getConfigs, hch]
  · simp [runMain, he]
  · exact ⟨by simp [runMain, hr], stringifyCompact_no_newline r.config⟩

/-- Witness for C7: answering the prompt over a missing file with a failing
write propagates the error, and the standalone command reports it on
stderr with exit status 1. -/
theorem write_failure_propagates_witness :
    getConfigs .missing (fun _ => "https://x") false = .error "write failure" ∧
    runMain .missing (fun _ => "https://x") false =
      ⟨none, some "write failure", 1⟩ := by
  have h := write_failure_propagates .missing (fun _ => "https://x")
  have h1 := h.1 (by rfl)
  exact ⟨h1, h.2.1 "write failure" h1⟩

/-- C8: no write happens before every registered key has been processed:
each registered key is either already truthy (skipped) or prompted, any
write event is the final event of the run, and everything before it is a
prompt. -/
theorem write_only_after_all_prompts (fs : FileState)
    (answers : String → String) (writeOk : Bool) (r : RunResult)
    (h : getConfigs fs answers writeOk = .ok r) :
    (∀ km ∈ PROMPTS, truthyField (loadConfig fs) km.1 = true ∨
      ∃ a, Event.prompted km.2 a ∈ r.events) ∧
    ∀ i t, r.events[i]? = some (.wrote t) →
      i + 1 = r.events.length ∧
      ∀ j, j < i → ∃ m a, r.events[j]? = some (.prompted m a) := by
  rcases getConfigs_cases fs answers writeOk with
    ⟨ht, hrun⟩ | ⟨ht, ha, hrun⟩ | ⟨ht, a, hne, ha, hrun⟩
  · rw [hrun] at h
    cases h
    refine ⟨fun km hkm => .inl ?_, fun i t hi => ?_⟩
    · simp [PROMPTS] at hkm
      subst hkm
      exact ht
    · simp at hi
  · rw [hrun] at h
    cases h
    refine ⟨fun km hkm => .inr ?_, fun i t hi => ?_⟩
    · simp [PROMPTS] at hkm
      subst hkm
      exact ⟨"", by simp [baseUrlMessage]⟩
    · exfalso
      match i, hi with
      | 0, hi => simp at hi
      | n + 1, hi => simp at hi
  · by_cases hw : writeOk
    · subst hw
      rw [if_pos rfl] at hrun
      rw [hrun] at h
      cases h
      refine ⟨fun km hkm => .inr ?_, fun i t hi => ?_⟩
      · simp [PROMPTS] at hkm
        subst hkm
        exact ⟨a, by simp [baseUrlMessage]⟩
      · match i, hi with
        | 0, hi => simp at hi
        | 1, hi =>
          refine ⟨rfl, fun j hj => ?_⟩
          match j, hj with
          | 0, _ => exact ⟨baseUrlMessage, a, rfl⟩
        | n + 2, hi => simp at hi
    · exfalso
      simp only [Bool.not_eq_true] at hw
      subst hw
      rw [if_neg Bool.false_ne_true] at hrun
      rw [hrun] at h
      cases h
/-- Witness for C8: over a missing file with the prompt answered and the
write succeeding, the write is the last of the two events and the only
event before it is the prompt. -/
theorem write_only_after_all_prompts_witness :
    (∀ km ∈ PROMPTS, truthyField (loadConfig .missing) km.1 = true ∨
      ∃ a, Event.prompted km.2 a ∈
        ([.prompted baseUrlMessage "https://x",
          .wrote (saveText (setField [] "tasksManagerSystemBaseUrl"
            (.str "https://x")))] : List Event)) ∧
    ∀ i t, ([.prompted baseUrlMessage "https://x",
        .wrote (saveText (setField [] "tasksManagerSystemBaseUrl"
          (.str "https://x")))] : List Event)[i]? = some (.wrote t) →
      i + 1 = ([.prompted baseUrlMessage "https://x",
        .wrote (saveText (setField [] "tasksManagerSystemBaseUrl"
          (.str "https://x")))] : List Event).length ∧
      ∀ j, j < i → ∃ m a,
        ([.prompted baseUrlMessage "https://x",
          .wrote (saveText (setField [] "tasksManagerSystemBaseUrl"
            (.str "https://x")))] : List Event)[j]? =
          some (.prompted m a) :=
  write_only_after_all_prompts .missing (fun _ => "https://x") true
    ⟨setField [] "tasksManagerSystemBaseUrl" (.str "https://x"),
     [.prompted baseUrlMessage "https://x",
      .wrote (saveText (setField [] "tasksManagerSystemBaseUrl"
        (.str "https://x")))]⟩ (by rfl)

end TasksSystem
